import Mathlib

/-!
Verification development for the room-monitor edge tracker
(`app/tracking.py`) and its slot registry (`app/main.py`).

The Python source computes with IEEE floats; this embedding computes the
same formulas exactly over `ℚ`.  Square roots (`np.hypot`, `** 0.5`,
`np.linalg.norm`) cannot be represented in `ℚ`, so every quantity of the
form `1 - sqrt x` is carried symbolically by the type `SVal` below, which
stores the radicand `x : ℚ` and compares values by the exact real order
(comparisons of `1 - sqrt x` against rationals are decided by squaring;
lemmas `SVal.lt_iff_*` prove the correspondence with the real order).
Configuration constants that the source reads from the environment are
modelled at their source-code defaults.
-/

/-- Axis-aligned bounding box `(x1, y1, x2, y2)`, embedding the 4-element
`np.ndarray` boxes of the source. -/
structure Box where
  x1 : ℚ
  y1 : ℚ
  x2 : ℚ
  y2 : ℚ
deriving DecidableEq

/-- Embeds `_compute_iou` of `app/tracking.py` (lines 9-23): intersection
over union with the `1e-6` denominator epsilon, returning `0` when the
intersection area is zero. -/
def iouQ (a b : Box) : ℚ :=
  let interW := max 0 (min a.x2 b.x2 - max a.x1 b.x1)
  let interH := max 0 (min a.y2 b.y2 - max a.y1 b.y1)
  let interArea := interW * interH
  if interArea = 0 then 0
  else
    let areaA := (a.x2 - a.x1) * (a.y2 - a.y1)
    let areaB := (b.x2 - b.x1) * (b.y2 - b.y1)
    interArea / (areaA + areaB - interArea + 1 / 1000000)

/-- Embeds `_bbox_iou` of `app/main.py` (lines 211-225): same IoU formula
but with the two areas clamped at `0` and an `inter <= 0` early return. -/
def bboxIou (a b : Box) : ℚ :=
  let interW := max 0 (min a.x2 b.x2 - max a.x1 b.x1)
  let interH := max 0 (min a.y2 b.y2 - max a.y1 b.y1)
  let inter := interW * interH
  if inter ≤ 0 then 0
  else
    let areaA := max 0 (a.x2 - a.x1) * max 0 (a.y2 - a.y1)
    let areaB := max 0 (b.x2 - b.x1) * max 0 (b.y2 - b.y1)
    inter / (areaA + areaB - inter + 1 / 1000000)

/-- Square of the distance between the centers of two boxes: the radicand
of `dist = np.hypot(acx - bcx, acy - bcy)` in `_center_distance_ratio`
(`app/tracking.py` lines 26-39) and of the same formula written with
`** 0.5` in `_bbox_center_ratio` (`app/main.py` lines 228-241). -/
def centerDistSq (a b : Box) : ℚ :=
  ((a.x1 + a.x2) / 2 - (b.x1 + b.x2) / 2) ^ 2
    + ((a.y1 + a.y2) / 2 - (b.y1 + b.y2) / 2) ^ 2

/-- Square of the reference diagonal `diag_ref = max(hypot aw ah, hypot bw bh, 1)`
of `_center_distance_ratio` / `_bbox_center_ratio`, with each side clamped
at `1`.  Since all arguments of the `max` are nonnegative, the maximum of
the square roots is the square root of this maximum. -/
def diagSq (a b : Box) : ℚ :=
  let aw := max 1 (a.x2 - a.x1)
  let ah := max 1 (a.y2 - a.y1)
  let bw := max 1 (b.x2 - b.x1)
  let bh := max 1 (b.y2 - b.y1)
  max (aw ^ 2 + ah ^ 2) (max (bw ^ 2 + bh ^ 2) 1)

/-- Square of the normalized center-distance ratio returned by
`_center_distance_ratio` (`app/tracking.py`) and `_bbox_center_ratio`
(`app/main.py`); the ratio itself is `sqrt` of this value, and a
comparison `ratio ≤ c` with `0 ≤ c` is equivalent to `centerRatioSq ≤ c ^ 2`. -/
def centerRatioSq (a b : Box) : ℚ :=
  centerDistSq a b / diagSq a b

/-- Exact representation of a score value computed by the source: either a
rational (`ofQ q`, value `q`, used for IoU scores) or `1 - sqrt r`
(`oneMinusSqrt r`, used for the center-distance and descriptor-distance
scores `1 - ratio` and `1 - dist`, which carry the squared radicand `r`). -/
inductive SVal where
  | ofQ (q : ℚ)
  | oneMinusSqrt (r : ℚ)
deriving DecidableEq

/-- Exact strict comparison of two `SVal`s as real numbers, assuming the
radicands are nonnegative (they are always squares divided by positive
numbers in this development); justified by the `SVal.lt_iff_*` lemmas. -/
def SVal.lt : SVal → SVal → Prop
  | .ofQ p, .ofQ q => p < q
  | .oneMinusSqrt r, .oneMinusSqrt s => s < r
  | .ofQ q, .oneMinusSqrt r => q < 1 ∧ r < (1 - q) ^ 2
  | .oneMinusSqrt r, .ofQ q => 1 < q ∨ (1 - q) ^ 2 < r

instance : DecidableRel SVal.lt := fun a b => by
  cases a <;> cases b <;> simp only [SVal.lt] <;> infer_instance

/-- Well-formedness of a score value: the radicand of a `1 - sqrt`
score is nonnegative.  Every score the embedded code produces satisfies
this, and under it `SVal.lt` agrees with the real order. -/
def SValWf : SVal → Prop
  | .ofQ _ => True
  | .oneMinusSqrt r => 0 ≤ r

/-- Embeds the per-pair eligibility scoring of `CentroidTracker.update`
(`app/tracking.py` lines 96-105): an IoU at or above `match_iou` scores as
the IoU itself; otherwise, a center ratio at most `match_center_ratio`
scores as `1 - ratio`; in both cases the pair is eligible only if the
score is nonnegative (the `if score >= 0` guard; for the center branch
`1 - sqrt rsq ≥ 0` is `rsq ≤ 1`, and the `max(score, 1.0 - ratio)`
against the initial `-1` is the identity whenever the guard passes).
`none` stands for the `-1.0` placed in the score matrix. -/
def pairScore (mIou mCenter : ℚ) (track det : Box) : Option SVal :=
  let iou := iouQ track det
  if mIou ≤ iou then
    if 0 ≤ iou then some (.ofQ iou) else none
  else
    let rsq := centerRatioSq track det
    if rsq ≤ mCenter ^ 2 then
      if rsq ≤ 1 then some (.oneMinusSqrt rsq) else none
    else none

/-- Association-list lookup over `ℕ`-keyed entries, modelling Python
`dict` access; returns the first entry with the given key. -/
def alookup {α : Type} (k : ℕ) : List (ℕ × α) → Option α
  | [] => none
  | p :: rest => if p.1 = k then some p.2 else alookup k rest

/-- Removes every entry with the given key, modelling `dict.pop`
(keys are kept distinct by the invariants, so at most one entry goes). -/
def aerase {α : Type} (k : ℕ) (l : List (ℕ × α)) : List (ℕ × α) :=
  l.filter (fun p => decide (p.1 ≠ k))

/-- Python `d[k] = v`: replace in place when the key is present
(dict assignment keeps the key's insertion position), append otherwise. -/
def aset {α : Type} (k : ℕ) (v : α) (l : List (ℕ × α)) : List (ℕ × α) :=
  if k ∈ l.map Prod.fst then
    l.map (fun p => if p.1 = k then (k, v) else p)
  else l ++ [(k, v)]

/-- Applies a function to the value at a key when present (in-place
mutation of a looked-up dict value), leaving other entries unchanged. -/
def amodify {α : Type} (k : ℕ) (f : α → α) (l : List (ℕ × α)) : List (ℕ × α) :=
  l.map (fun p => if p.1 = k then (k, f p.2) else p)

/-- Embeds the `TrackState` dataclass of `app/tracking.py`. -/
structure TrackState where
  bbox : Box
  cls : ℤ
  conf : ℚ
  lost : ℕ
deriving DecidableEq

/-- One detection dict `{bbox, cls, conf}` as consumed by
`CentroidTracker.update`. -/
structure Detection where
  bbox : Box
  cls : ℤ
  conf : ℚ
deriving DecidableEq

/-- One tracked-object dict `{id, bbox, cls, conf}` as returned by
`CentroidTracker._build_object`. -/
structure TrackedObj where
  id : ℕ
  bbox : Box
  cls : ℤ
  conf : ℚ
deriving DecidableEq

/-- State of a `CentroidTracker` (`app/tracking.py` lines 50-61):
configuration, the identity counter `_next_id`, and `_tracks` as an
insertion-ordered association list (Python dicts preserve insertion
order; deletion keeps the order of the remaining keys and fresh keys are
appended). `match_center_ratio` is the field `matchCenter` here. -/
structure Tracker where
  maxLost : ℕ
  matchIou : ℚ
  matchCenter : ℚ
  nextId : ℕ
  tracks : List (ℕ × TrackState)
deriving DecidableEq

/-- The constructor defaults of `CentroidTracker.__init__`:
`max_lost = 45`, `match_iou = 0.2`, `match_center_ratio = 0.35`. -/
def Tracker.init : Tracker :=
  { maxLost := 45, matchIou := 1/5, matchCenter := 7/20, nextId := 1, tracks := [] }

/-- Embeds `CentroidTracker._register` (lines 63-72): the new track gets
identity `_next_id`, the counter is incremented, and the entry is
appended; returns the new state and the assigned identity. -/
def Tracker.register (tr : Tracker) (d : Detection) : Tracker × ℕ :=
  ({ tr with
      nextId := tr.nextId + 1,
      tracks := tr.tracks ++ [(tr.nextId, ⟨d.bbox, d.cls, d.conf, 0⟩)] },
   tr.nextId)

/-- Embeds `CentroidTracker._build_object` (lines 148-155). -/
def buildObj (p : ℕ × TrackState) : TrackedObj :=
  ⟨p.1, p.2.bbox, p.2.cls, p.2.conf⟩

/-- The eligible entries of the score matrix of `update` (lines 87-105)
in row-major order: one triple `(track id, detection index, score)` per
pair whose score is not `-1.0`; rows follow the `_tracks` key order and
columns the detection order, matching `np.argmax` flattening. -/
def candidates (tr : Tracker) (dets : List Detection) : List (ℕ × ℕ × SVal) :=
  tr.tracks.flatMap (fun p =>
    dets.enum.filterMap (fun q =>
      (pairScore tr.matchIou tr.matchCenter p.2.bbox q.2.bbox).map
        (fun s => (p.1, q.1, s))))

/-- First maximal entry of a candidate list: `np.argmax` returns the
first index attaining the maximum, so a later entry replaces the current
best only when strictly greater. -/
def pickBest : List (ℕ × ℕ × SVal) → Option (ℕ × ℕ × SVal) :=
  List.foldl
    (fun best c =>
      match best with
      | none => some c
      | some b => if SVal.lt b.2.2 c.2.2 then some c else best)
    none

/-- The greedy matching loop of `update` (lines 107-122): repeatedly take
the highest-scoring remaining pair and discard its row and column.  The
fuel bounds the iteration count (the loop consumes at least one distinct
track row per match, so `tr.tracks.length` iterations always suffice);
an exhausted candidate list is the `max_value < 0` break. -/
def greedyLoop : ℕ → List (ℕ × ℕ × SVal) → List (ℕ × ℕ)
  | 0, _ => []
  | fuel + 1, cands =>
    match pickBest cands with
    | none => []
    | some (t, d, _) =>
      (t, d) :: greedyLoop fuel
        (cands.filter (fun c => decide (c.1 ≠ t) && decide (c.2.1 ≠ d)))

/-- The list `matches` of `(track id, detection index)` pairs produced by
the greedy loop of `update`. -/
def greedyMatches (tr : Tracker) (dets : List Detection) : List (ℕ × ℕ) :=
  greedyLoop (candidates tr dets).length (candidates tr dets)

/-- Embeds lines 124-129 of `update`: each matched track takes the
matched detection's bbox, class and confidence and resets `lost` to 0. -/
def applyMatches (tracks : List (ℕ × TrackState)) (matchList : List (ℕ × ℕ))
    (dets : List Detection) : List (ℕ × TrackState) :=
  tracks.map (fun p =>
    match alookup p.1 matchList with
    | none => p
    | some dIdx =>
      match dets[dIdx]? with
      | none => p
      | some det => (p.1, ⟨det.bbox, det.cls, det.conf, 0⟩))

/-- Embeds lines 135-138 of `update`: every track in `unmatched` has
`lost` incremented and is dropped when the result exceeds `max_lost`
(the iteration order of the Python set does not affect the result). -/
def applyLost (maxLost : ℕ) (unmatched : List ℕ)
    (tracks : List (ℕ × TrackState)) : List (ℕ × TrackState) :=
  tracks.filterMap (fun p =>
    if p.1 ∈ unmatched then
      if p.2.lost + 1 > maxLost then none
      else some (p.1, { p.2 with lost := p.2.lost + 1 })
    else some p)

/-- Embeds `CentroidTracker.update` (lines 74-143).  With no live tracks
every detection is registered and returned (the incrementally built
`tracked` list equals the final track list in order).  Otherwise: greedy
matching, application of matches, registration of unmatched detections
in index order, `lost` handling for unmatched tracks, reset of the
identity counter when the live set ends empty, and the built object
list. -/
def Tracker.update (tr : Tracker) (dets : List Detection) :
    Tracker × List TrackedObj :=
  if tr.tracks.isEmpty then
    let tr' := dets.foldl (fun t d => (t.register d).1) tr
    (tr', tr'.tracks.map buildObj)
  else
    let matchList := greedyMatches tr dets
    let tr1 := { tr with tracks := applyMatches tr.tracks matchList dets }
    let tr2 := ((List.range dets.length).filter
        (fun i => decide (i ∉ matchList.map Prod.snd))).foldl
      (fun t i =>
        match dets[i]? with
        | some det => (t.register det).1
        | none => t) tr1
    let unmatched := (tr.tracks.map Prod.fst).filter
      (fun k => decide (k ∉ matchList.map Prod.fst))
    let tracks3 := applyLost tr.maxLost unmatched tr2.tracks
    ({ tr2 with
        nextId := if tracks3.isEmpty then 1 else tr2.nextId,
        tracks := tracks3 },
     tracks3.map buildObj)

/-- Iterated `update` over a list of per-cycle detection lists, keeping
only the tracker state. -/
def updateSeq (tr : Tracker) (detss : List (List Detection)) : Tracker :=
  detss.foldl (fun t ds => (t.update ds).1) tr

/-- Holds when no update in the chain ends with an empty live-track set,
i.e. the identity counter is never reset while the chain runs. -/
def noResetChain : Tracker → List (List Detection) → Prop
  | _, [] => True
  | tr, ds :: rest =>
    (tr.update ds).1.tracks ≠ [] ∧ noResetChain (tr.update ds).1 rest

/-- Well-formedness of a tracker state, true initially and preserved by
`update`: track identities are distinct, at least 1, and below the
identity counter; the counter is at least 1; and an empty live set always
goes with a counter equal to 1 (`update` resets the counter whenever it
empties the live set, and the constructor starts that way). -/
def TrackerInv (tr : Tracker) : Prop :=
  (tr.tracks.map Prod.fst).Nodup
    ∧ (∀ k ∈ tr.tracks.map Prod.fst, 1 ≤ k ∧ k < tr.nextId)
    ∧ 1 ≤ tr.nextId
    ∧ (tr.tracks = [] → tr.nextId = 1)

instance (tr : Tracker) : Decidable (TrackerInv tr) := by
  unfold TrackerInv
  infer_instance

/-- The module constant `MAX_TARGETS = 4` of `app/main.py`. -/
def maxTargets : ℕ := 4

/-- Default of the env-configurable `SLOT_RECALL_IOU` (`0.3`). -/
def slotRecallIou : ℚ := 3/10

/-- Default of the env-configurable `SLOT_RECALL_CENTER` (`0.35`). -/
def slotRecallCenter : ℚ := 7/20

/-- Default of the env-configurable `SLOT_RECALL_DESCRIPTOR` (`0.6`). -/
def slotRecallDesc : ℚ := 3/5

/-- One `slot_memory` value of `app/main.py`: optionally bound track id,
last-known bbox, last-known appearance descriptor (a flattened histogram,
modelled as `List ℚ`), and last-seen timestamp.  Every entry the code
creates carries a `last_seen` key, so the field is total here (which also
makes `info.setdefault("last_seen", ...)` in `_prune_selected` a no-op). -/
structure SlotInfo where
  track_id : Option ℕ
  bbox : Option Box
  descriptor : Option (List ℚ)
  last_seen : ℚ
deriving DecidableEq

/-- The registry's mutable state: `selected_tracks` (track id → slot) and
`slot_memory` (slot → `SlotInfo`), both insertion-ordered dicts. -/
structure Registry where
  selected : List (ℕ × ℕ)
  slotMemory : List (ℕ × SlotInfo)
deriving DecidableEq

/-- Result type of `_toggle_track`: the dict
`{status, slot}` with status `added`, `removed` or `full`. -/
inductive ToggleResult where
  | added (slot : ℕ)
  | removed (slot : ℕ)
  | full
deriving DecidableEq

/-- Inserts an entry into a key-sorted slot-memory list, keeping it
sorted by key. -/
def insertSorted (p : ℕ × SlotInfo) :
    List (ℕ × SlotInfo) → List (ℕ × SlotInfo)
  | [] => [p]
  | q :: rest => if p.1 ≤ q.1 then p :: q :: rest else q :: insertSorted p rest

/-- Sorts slot-memory entries by slot number, modelling Python's
`sorted(slot_memory.items())` (keys are distinct, so only the first tuple
component is ever compared). -/
def sortMem : List (ℕ × SlotInfo) → List (ℕ × SlotInfo)
  | [] => []
  | p :: rest => insertSorted p (sortMem rest)

/-- Embeds `_next_available_slot` (`app/main.py` lines 162-170): first the
lowest-numbered memory entry whose `track_id` is `None` (an
unbound-remembered slot), else the lowest slot in `1..MAX_TARGETS` with no
memory entry at all, else `None`. -/
def nextAvailableSlot (mem : List (ℕ × SlotInfo)) : Option ℕ :=
  match (sortMem mem).find? (fun p => p.2.track_id.isNone) with
  | some p => some p.1
  | none =>
    (List.range' 1 maxTargets).find? (fun s => decide (s ∉ mem.map Prod.fst))

/-- Embeds `_toggle_track` (`app/main.py` lines 190-208): a selected track
is deselected (its slot's memory entry is popped); otherwise the next
available slot is bound and seeded with a fresh memory entry
(`bbox = None`, `descriptor = None`, `last_seen = now`), or `full` is
reported with no state change. -/
def toggleTrack (reg : Registry) (tid : ℕ) (now : ℚ) :
    Registry × ToggleResult :=
  match alookup tid reg.selected with
  | some slot =>
    ({ selected := aerase tid reg.selected,
       slotMemory := aerase slot reg.slotMemory }, .removed slot)
  | none =>
    match nextAvailableSlot reg.slotMemory with
    | none => (reg, .full)
    | some slot =>
      ({ selected := aset tid slot reg.selected,
         slotMemory := aset slot ⟨some tid, none, none, now⟩ reg.slotMemory },
       .added slot)

/-- Embeds `_prune_selected` (`app/main.py` lines 146-159): every selected
entry whose track id is not active is removed from `selected_tracks`, and
its slot's memory entry (when present) has `track_id` set to `None` while
box, descriptor and timestamp are retained.  The loop runs over a
snapshot (`list(selected_tracks.items())`) of the pre-call dict. -/
def pruneStep (activeIds : List ℕ) (r : Registry) (p : ℕ × ℕ) : Registry :=
  if p.1 ∈ activeIds then r
  else
    { selected := aerase p.1 r.selected,
      slotMemory :=
        amodify p.2 (fun i => { i with track_id := none }) r.slotMemory }

def pruneSelected (reg : Registry) (activeIds : List ℕ) : Registry :=
  reg.selected.foldl (pruneStep activeIds) reg

/-- Sum of squared componentwise differences: the radicand of
`np.linalg.norm(a - b)` in `_descriptor_distance` (`app/main.py`
lines 263-268), meaningful when the two descriptors have equal length. -/
def descDistSq (a b : List ℚ) : ℚ :=
  ((a.zip b).map (fun p => (p.1 - p.2) ^ 2)).sum

/-- The per-(track, slot) recall score of `_auto_reassign` (`app/main.py`
lines 290-308).  When both descriptors are present the score is
`1 - descriptor_distance` if that distance is at most
`SLOT_RECALL_DESCRIPTOR`, and there is no score otherwise (a shape
mismatch makes the distance `1.0 > 0.6`, hence no score; the geometric
test is NOT used as a fallback in this case).  Only when at least one
descriptor is missing is the geometric score used: IoU against the
slot's remembered box if at least `SLOT_RECALL_IOU`, else
`1 - center_ratio` if the ratio is at most `SLOT_RECALL_CENTER` (the
`max` against the initial `-1` is the identity there), else no score; a
slot without a remembered box is skipped.  `none` models `score = -1`. -/
def recallScore (descriptor : Option (List ℚ)) (objBbox : Box)
    (info : SlotInfo) : Option SVal :=
  match descriptor, info.descriptor with
  | some d, some ref =>
    if d.length = ref.length then
      if descDistSq d ref ≤ slotRecallDesc ^ 2 then
        some (.oneMinusSqrt (descDistSq d ref))
      else none
    else none
  | _, _ =>
    match info.bbox with
    | none => none
    | some mem =>
      let iou := bboxIou objBbox mem
      if slotRecallIou ≤ iou then some (.ofQ iou)
      else
        let rsq := centerRatioSq objBbox mem
        if rsq ≤ slotRecallCenter ^ 2 then some (.oneMinusSqrt rsq) else none

/-- One step of the best-slot scan of `_auto_reassign` (`app/main.py`
lines 288-311): `score > best_score` with `best_score` starting at
`-1.0`, so a later slot replaces the current best only on a strictly
greater score, and any scored slot beats the initial `-1` (every
produced score value is nonnegative). -/
def recallStep (descriptor : Option (List ℚ)) (objBbox : Box)
    (best : Option (ℕ × SVal)) (p : ℕ × SlotInfo) : Option (ℕ × SVal) :=
  match recallScore descriptor objBbox p.2 with
  | none => best
  | some v =>
    match best with
    | none => some (p.1, v)
    | some b => if SVal.lt b.2 v then some (p.1, v) else best

/-- The best-slot scan of `_auto_reassign` (`app/main.py` lines 288-311)
over the inactive-slot snapshot in dict order. -/
def bestRecallSlot (inactive : List (ℕ × SlotInfo))
    (descriptor : Option (List ℚ)) (objBbox : Box) : Option (ℕ × SVal) :=
  inactive.foldl (recallStep descriptor objBbox) none

/-- Lookup in the `object_descriptors` dict (`descriptors.get(track_id)`
returns `None` both for an absent key and for a stored `None`). -/
def getDesc (descs : List (ℕ × Option (List ℚ))) (tid : ℕ) :
    Option (List ℚ) :=
  match alookup tid descs with
  | some o => o
  | none => none

/-- One iteration of the `_auto_reassign` loop (`app/main.py`
lines 283-324) for a single tracked object, over the accumulated
`(registry, active-id set)` state: an already-active object is skipped;
otherwise its best-scoring inactive slot (scanned over the pre-loop
snapshot) is re-checked against the live memory to still be present and
unbound (`continue` otherwise) and then bound: the slot's memory gets
the track id, the current box, the timestamp, and the fresh descriptor
when one is available (otherwise the remembered descriptor is kept),
and the track id joins the active set. -/
def autoStep (inactive : List (ℕ × SlotInfo))
    (descs : List (ℕ × Option (List ℚ))) (now : ℚ)
    (st : Registry × List ℕ) (obj : TrackedObj) : Registry × List ℕ :=
  if obj.id ∈ st.2 then st
  else
    match bestRecallSlot inactive (getDesc descs obj.id) obj.bbox with
    | none => st
    | some (slot, _) =>
      match alookup slot st.1.slotMemory with
      | none => st
      | some info =>
        if info.track_id.isSome then st
        else
          ({ selected := aset obj.id slot st.1.selected,
             slotMemory :=
               aset slot
                 { info with
                     track_id := some obj.id,
                     bbox := some obj.bbox,
                     last_seen := now,
                     descriptor :=
                       match getDesc descs obj.id with
                       | some d => some d
                       | none => info.descriptor }
                 st.1.slotMemory },
           st.2 ++ [obj.id])

def autoReassign (reg : Registry) (tracked : List TrackedObj)
    (descs : List (ℕ × Option (List ℚ))) (now : ℚ) : Registry :=
  (tracked.foldl
    (autoStep (reg.slotMemory.filter (fun p => p.2.track_id.isNone)) descs now)
    (reg, reg.selected.map Prod.fst)).1

/-- Embeds the per-cycle memory refresh for a bound slot
(`app/main.py` lines 419-431, the spec's `bind_update`): the slot's
memory entry (a fresh dict if absent) gets the track id, current box and
timestamp, and the fresh descriptor when available. -/
def bindUpdate (reg : Registry) (slot tid : ℕ) (bbox : Box)
    (descriptor : Option (List ℚ)) (now : ℚ) : Registry :=
  let info := (alookup slot reg.slotMemory).getD ⟨none, none, none, 0⟩
  { reg with
      slotMemory :=
        aset slot
          { info with
              track_id := some tid,
              bbox := some bbox,
              last_seen := now,
              descriptor :=
                match descriptor with
                | some d => some d
                | none => info.descriptor }
          reg.slotMemory }

/-- Embeds the state change of the `DELETE /targets` route
(`app/main.py` lines 572-579), after the route's `1 ≤ slot ≤ MAX_TARGETS`
validation: an unknown slot reports `False` (HTTP 404) and changes
nothing; otherwise the bound track (if any) leaves `selected_tracks` and
the memory entry is popped. -/
def deleteSlot (reg : Registry) (slot : ℕ) : Registry × Bool :=
  match alookup slot reg.slotMemory with
  | none => (reg, false)
  | some info =>
    ({ selected :=
         match info.track_id with
         | some t => aerase t reg.selected
         | none => reg.selected,
       slotMemory := aerase slot reg.slotMemory }, true)

/-- The registry part of one processing cycle in the order the code runs
it (`inference_frame_generator`, `app/main.py` lines 382-388): after
`tracker.update` produces `tracked_objects`, the code calls
`_auto_reassign` first and `_prune_selected` second. -/
def cycleRegistry (reg : Registry) (tracked : List TrackedObj)
    (descs : List (ℕ × Option (List ℚ))) (now : ℚ) : Registry :=
  pruneSelected (autoReassign reg tracked descs now) (tracked.map TrackedObj.id)

/-- Modelled from the spec: the cycle order claimed in §4.2 — `reconcile`
(prune) runs immediately after the Associator and `auto_reassign` runs
after `reconcile`, so recall observes a binding map already cleared of
this cycle's dead tracks.  Kept for comparison with `cycleRegistry`. -/
def specCycleRegistry (reg : Registry) (tracked : List TrackedObj)
    (descs : List (ℕ × Option (List ℚ))) (now : ℚ) : Registry :=
  autoReassign (pruneSelected reg (tracked.map TrackedObj.id)) tracked descs now

/-- Decidability helper: an `Option.elim` with a `False` default. -/
instance {α : Type} (o : Option α) (f : α → Prop) [inst : ∀ a, Decidable (f a)] :
    Decidable (o.elim False f) :=
  match o with
  | none => isFalse fun h => h
  | some a => inst a

/-- Decidability helper: an `Option.elim` with a `True` default. -/
instance {α : Type} (o : Option α) (f : α → Prop) [inst : ∀ a, Decidable (f a)] :
    Decidable (o.elim True f) :=
  match o with
  | none => isTrue trivial
  | some a => inst a

/-- One direction of the binding-sync invariant: a `selected_tracks`
entry `(t, s)` has a memory entry at slot `s` recording track `t`. -/
def boundSlotOk (mem : List (ℕ × SlotInfo)) (p : ℕ × ℕ) : Prop :=
  (alookup p.2 mem).elim False (fun info => info.track_id = some p.1)

/-- The other direction of the binding-sync invariant: a memory entry
recording track `t` at slot `s` has `(t, s)` in `selected_tracks`. -/
def slotBoundTo (sel : List (ℕ × ℕ)) (slot : ℕ) (o : Option ℕ) : Prop :=
  o.elim True (fun t => alookup t sel = some slot)

instance (mem : List (ℕ × SlotInfo)) (p : ℕ × ℕ) :
    Decidable (boundSlotOk mem p) :=
  inferInstanceAs
    (Decidable ((alookup p.2 mem).elim False (fun info => info.track_id = some p.1)))

instance (sel : List (ℕ × ℕ)) (slot : ℕ) (o : Option ℕ) :
    Decidable (slotBoundTo sel slot o) :=
  inferInstanceAs
    (Decidable (o.elim True (fun t => alookup t sel = some slot)))

/-- Well-formedness of the registry state, true initially (both dicts
empty) and preserved by every registry operation: distinct keys in both
dicts, memory slots within `1..MAX_TARGETS`, and exact agreement between
the binding map and the slots' recorded track ids. -/
def RegInv (reg : Registry) : Prop :=
  (reg.selected.map Prod.fst).Nodup
    ∧ (reg.slotMemory.map Prod.fst).Nodup
    ∧ (∀ p ∈ reg.slotMemory, 1 ≤ p.1 ∧ p.1 ≤ maxTargets)
    ∧ (∀ p ∈ reg.selected, boundSlotOk reg.slotMemory p)
    ∧ (∀ p ∈ reg.slotMemory, slotBoundTo reg.selected p.1 p.2.track_id)

instance (reg : Registry) : Decidable (RegInv reg) := by
  unfold RegInv
  infer_instance

/-- A concrete box used by the example states below. -/
def boxA : Box := ⟨0, 0, 10, 10⟩

/-- A concrete tracker state with two live tracks, one of them at the
expiry boundary (`lost = max_lost`), used to witness the update
theorems.  All rational fields are integral so that the state is
kernel-computable. -/
def trackerW : Tracker :=
  { maxLost := 45, matchIou := 1/5, matchCenter := 7/20, nextId := 3,
    tracks := [(1, ⟨boxA, 0, 1, 45⟩), (2, ⟨⟨20, 20, 30, 30⟩, 0, 1, 0⟩)] }

/-- A concrete detection used to witness the registration theorems. -/
def detW : Detection := ⟨⟨40, 40, 50, 50⟩, 0, 1⟩

/-- Registry with retained (unbound) memory at slot 3 and slots 1, 2
never used: the state refuting the lowest-numbered-slot claim. -/
def regC5 : Registry :=
  { selected := [],
    slotMemory := [(3, ⟨none, some boxA, none, 0⟩)] }

/-- Registry with retained (unbound) memory at slot 1: the state showing
that a toggle pair purges rather than restores that memory. -/
def regC4 : Registry :=
  { selected := [],
    slotMemory := [(1, ⟨none, some boxA, some [1, 0], 5⟩)] }

/-- Registry in which slot 1 is still bound to track 9 while track 9 is
about to disappear from the live set: the state separating the code's
cycle order from the spec's. -/
def regC6 : Registry :=
  { selected := [(9, 1)],
    slotMemory := [(1, ⟨some 9, some boxA, none, 0⟩)] }

/-- The single live track of the `regC6` scenario: a fresh identity at
exactly the remembered position of slot 1. -/
def trackedC6 : List TrackedObj := [⟨2, boxA, 0, 1⟩]

/-- Slot memory value whose descriptor is far from the query descriptor
while its remembered box coincides with the query box: the state showing
that no geometric fallback happens once both descriptors are present. -/
def infoC7 : SlotInfo := ⟨none, some boxA, some [0, 0], 0⟩

/-- Registry holding only the unbound remembered slot 2 with a
descriptor close to the query: witnesses the appearance-recall path. -/
def regW7 : Registry :=
  { selected := [],
    slotMemory := [(2, ⟨none, some boxA, some [1, 0], 7⟩)] }

/-- The live track of the `regW7` scenario. -/
def objW7 : TrackedObj := ⟨5, ⟨100, 100, 120, 120⟩, 0, 1⟩

/-- Descriptor table of the `regW7` scenario: track 5 carries a
descriptor at squared distance `1/4` from slot 2's memory. -/
def descsW7 : List (ℕ × Option (List ℚ)) := [(5, some [1, -1/2])]

/-- A registry with all four slots bound, used to witness the capacity
theorem. -/
def regFull : Registry :=
  { selected := [(10, 1), (20, 2), (30, 3), (40, 4)],
    slotMemory :=
      [(1, ⟨some 10, some boxA, none, 0⟩),
       (2, ⟨some 20, some boxA, none, 0⟩),
       (3, ⟨some 30, some boxA, none, 0⟩),
       (4, ⟨some 40, some boxA, none, 0⟩)] }

/-- A registry with one bound slot and one remembered slot, used to
witness the invariant-preservation theorem. -/
def regW9 : Registry :=
  { selected := [(10, 1)],
    slotMemory :=
      [(1, ⟨some 10, some boxA, none, 0⟩),
       (2, ⟨none, some ⟨20, 20, 30, 30⟩, some [1, 0], 3⟩)] }

/-- Registry left bound to a live track, used to witness the cycle-order
theorem. -/
def regW6 : Registry :=
  { selected := [(2, 1)],
    slotMemory := [(1, ⟨some 2, some boxA, none, 0⟩)] }

/-! Generic association-list lemmas. -/

theorem alookup_eq_none {α : Type} {k : ℕ} {l : List (ℕ × α)} :
    alookup k l = none ↔ k ∉ l.map Prod.fst := by
  induction l with
  | nil => simp [alookup]
  | cons p rest ih =>
    by_cases h : p.1 = k
    · simp [alookup, h]
    · simp only [alookup, h, if_false, List.map_cons, List.mem_cons]
      rw [ih]
      constructor
      · rintro hk (hc | hc)
        · exact h hc.symm
        · exact hk hc
      · exact fun hk hc => hk (Or.inr hc)

theorem alookup_mem {α : Type} {k : ℕ} {v : α} {l : List (ℕ × α)}
    (h : alookup k l = some v) : (k, v) ∈ l := by
  induction l with
  | nil => simp [alookup] at h
  | cons p rest ih =>
    by_cases hp : p.1 = k
    · simp [alookup, hp] at h
      subst hp
      rw [← h]
      simp
    · simp [alookup, hp] at h
      exact List.mem_cons_of_mem _ (ih h)

theorem mem_alookup {α : Type} {k : ℕ} {v : α} {l : List (ℕ × α)}
    (hnd : (l.map Prod.fst).Nodup) (h : (k, v) ∈ l) : alookup k l = some v := by
  induction l with
  | nil => simp at h
  | cons p rest ih =>
    simp only [List.map_cons, List.nodup_cons] at hnd
    rcases List.mem_cons.mp h with h1 | h2
    · rw [← h1]; simp [alookup]
    · have hk : p.1 ≠ k := by
        intro he
        exact hnd.1 (he ▸ (List.mem_map.mpr ⟨(k, v), h2, rfl⟩))
      simp only [alookup, hk, if_false]
      exact ih hnd.2 h2

theorem alookup_append {α : Type} (k : ℕ) (l₁ l₂ : List (ℕ × α)) :
    alookup k (l₁ ++ l₂) =
      match alookup k l₁ with
      | some v => some v
      | none => alookup k l₂ := by
  induction l₁ with
  | nil => simp [alookup]
  | cons p rest ih =>
    by_cases h : p.1 = k <;> simp [alookup, h, ih]

theorem alookup_aerase_self {α : Type} (k : ℕ) (l : List (ℕ × α)) :
    alookup k (aerase k l) = none := by
  rw [alookup_eq_none]
  intro hmem
  rw [List.mem_map] at hmem
  obtain ⟨p, hp, hfst⟩ := hmem
  rw [aerase, List.mem_filter] at hp
  simp only [decide_eq_true_eq] at hp
  exact hp.2 hfst

theorem alookup_aerase_ne {α : Type} {k k' : ℕ} (l : List (ℕ × α))
    (h : k' ≠ k) : alookup k' (aerase k l) = alookup k' l := by
  unfold aerase
  induction l with
  | nil => rfl
  | cons p rest ih =>
    rw [List.filter_cons]
    by_cases hpk : p.1 = k
    · have hcond : (decide (p.1 ≠ k)) = false := by simp [hpk]
      rw [hcond]
      simp only [Bool.false_eq_true, if_false]
      rw [ih]
      have hp' : ¬ p.1 = k' := by omega
      simp [alookup, hp']
    · have hcond : (decide (p.1 ≠ k)) = true := by simp [hpk]
      rw [hcond]
      simp only [if_true]
      by_cases hp' : p.1 = k'
      · simp [alookup, hp']
      · simp only [alookup, hp', if_false]
        simpa using ih

theorem aerase_of_not_mem {α : Type} {k : ℕ} {l : List (ℕ × α)}
    (h : k ∉ l.map Prod.fst) : aerase k l = l := by
  unfold aerase
  rw [List.filter_eq_self]
  intro p hp
  simp only [decide_eq_true_eq]
  intro he
  exact h (List.mem_map.mpr ⟨p, hp, he⟩)

theorem aerase_map_fst_sublist {α : Type} (k : ℕ) (l : List (ℕ × α)) :
    List.Sublist ((aerase k l).map Prod.fst) (l.map Prod.fst) :=
  List.Sublist.map Prod.fst (List.filter_sublist l)

theorem alookup_map_setKey {α : Type} {k k' : ℕ} (v : α) (l : List (ℕ × α))
    (h : k' ≠ k) :
    alookup k' (l.map (fun p => if p.1 = k then (k, v) else p)) = alookup k' l := by
  induction l with
  | nil => simp [alookup]
  | cons p rest ih =>
    by_cases hpk : p.1 = k
    · have hk : ¬ k = k' := by omega
      simp [alookup, hpk, hk, ih]
    · by_cases hp : p.1 = k'
      · simp [alookup, hpk, hp, h]
      · simp [alookup, hpk, hp, ih]

theorem alookup_aset_self {α : Type} (k : ℕ) (v : α) (l : List (ℕ × α)) :
    alookup k (aset k v l) = some v := by
  unfold aset
  by_cases h : k ∈ l.map Prod.fst
  · simp only [h, if_true]
    induction l with
    | nil => simp at h
    | cons p rest ih =>
      by_cases hp : p.1 = k
      · simp [alookup, hp]
      · simp only [List.map_cons, List.mem_cons] at h
        rcases h with h1 | h2
        · exact absurd h1.symm hp
        · simp only [List.map_cons, alookup, hp, if_false]
          exact ih h2
  · simp only [h, if_false]
    rw [alookup_append]
    rw [alookup_eq_none.mpr h]
    simp [alookup]

theorem alookup_aset_ne {α : Type} {k k' : ℕ} (v : α) (l : List (ℕ × α))
    (h : k' ≠ k) : alookup k' (aset k v l) = alookup k' l := by
  unfold aset
  by_cases hm : k ∈ l.map Prod.fst
  · simp only [hm, if_true]
    exact alookup_map_setKey v l h
  · simp only [hm, if_false]
    rw [alookup_append]
    cases hc : alookup k' l with
    | some v' => simp
    | none =>
      have hk : ¬ k = k' := by omega
      simp [alookup, hk]

theorem aset_map_fst_of_mem {α : Type} {k : ℕ} (v : α) {l : List (ℕ × α)}
    (h : k ∈ l.map Prod.fst) :
    (aset k v l).map Prod.fst = l.map Prod.fst := by
  unfold aset
  rw [if_pos h, List.map_map]
  refine List.map_congr_left ?_
  intro p _
  by_cases hp : p.1 = k <;> simp [hp]

theorem aset_map_fst_of_not_mem {α : Type} {k : ℕ} (v : α) {l : List (ℕ × α)}
    (h : k ∉ l.map Prod.fst) :
    (aset k v l).map Prod.fst = l.map Prod.fst ++ [k] := by
  unfold aset
  rw [if_neg h, List.map_append]
  rfl

theorem amodify_map_fst {α : Type} (k : ℕ) (f : α → α) (l : List (ℕ × α)) :
    (amodify k f l).map Prod.fst = l.map Prod.fst := by
  unfold amodify
  rw [List.map_map]
  refine List.map_congr_left ?_
  intro p _
  by_cases hp : p.1 = k <;> simp [hp]

theorem alookup_amodify_self {α : Type} (k : ℕ) (f : α → α) (l : List (ℕ × α)) :
    alookup k (amodify k f l) = (alookup k l).map f := by
  unfold amodify
  induction l with
  | nil => simp [alookup]
  | cons p rest ih =>
    by_cases hp : p.1 = k <;> simp [alookup, hp, ih]

theorem alookup_amodify_ne {α : Type} {k k' : ℕ} (f : α → α) (l : List (ℕ × α))
    (h : k' ≠ k) : alookup k' (amodify k f l) = alookup k' l := by
  unfold amodify
  induction l with
  | nil => simp [alookup]
  | cons p rest ih =>
    by_cases hpk : p.1 = k
    · have hk : ¬ k = k' := by omega
      simp [alookup, hpk, hk, ih]
    · by_cases hp : p.1 = k'
      · simp [alookup, hpk, hp, h]
      · simp [alookup, hpk, hp, ih]

/-! Real-number semantics of `SVal.lt`: the squared comparisons decide
exactly the order of the represented real values. -/

theorem svalLt_ofQ_iff (p q : ℚ) :
    SVal.lt (.ofQ p) (.ofQ q) ↔ (p : ℝ) < (q : ℝ) := by
  simp only [SVal.lt]
  exact_mod_cast Iff.rfl

theorem svalLt_oneMinusSqrt_iff (r s : ℚ) (hs : (0:ℚ) ≤ s) :
    SVal.lt (.oneMinusSqrt r) (.oneMinusSqrt s) ↔
      (1 : ℝ) - Real.sqrt (r : ℝ) < 1 - Real.sqrt (s : ℝ) := by
  simp only [SVal.lt]
  rw [sub_lt_sub_iff_left]
  rw [Real.sqrt_lt_sqrt_iff (by exact_mod_cast hs)]
  exact_mod_cast Iff.rfl

theorem svalLt_ofQ_oneMinusSqrt (q r : ℚ) (hr : (0:ℚ) ≤ r) :
    SVal.lt (.ofQ q) (.oneMinusSqrt r) ↔
      (q : ℝ) < 1 - Real.sqrt (r : ℝ) := by
  simp only [SVal.lt]
  constructor
  · rintro ⟨hq1, hq2⟩
    have h1 : (0:ℝ) < 1 - (q:ℝ) := by
      have : (q:ℝ) < 1 := by exact_mod_cast hq1
      linarith
    have h2 : (r:ℝ) < (1 - (q:ℝ)) ^ 2 := by
      have := hq2
      push_cast
      exact_mod_cast hq2
    have := (Real.sqrt_lt' h1).mpr h2
    linarith
  · intro h
    have hsq : (0:ℝ) ≤ Real.sqrt (r:ℝ) := Real.sqrt_nonneg _
    have hq1 : (q:ℝ) < 1 := by linarith
    have h1 : (0:ℝ) < 1 - (q:ℝ) := by linarith
    have h2 : Real.sqrt (r:ℝ) < 1 - (q:ℝ) := by linarith
    have h3 : (r:ℝ) < (1 - (q:ℝ)) ^ 2 := (Real.sqrt_lt' h1).mp h2
    constructor
    · exact_mod_cast hq1
    · exact_mod_cast (by push_cast; linarith : (r:ℝ) < ((1 - q : ℚ) : ℝ) ^ 2)

theorem svalLt_oneMinusSqrt_ofQ (r q : ℚ) (hr : (0:ℚ) ≤ r) :
    SVal.lt (.oneMinusSqrt r) (.ofQ q) ↔
      (1 : ℝ) - Real.sqrt (r : ℝ) < q := by
  simp only [SVal.lt]
  by_cases hq : (1:ℚ) < q
  · have hsq : (0:ℝ) ≤ Real.sqrt (r:ℝ) := Real.sqrt_nonneg _
    have : (1:ℝ) < (q:ℝ) := by exact_mod_cast hq
    constructor
    · intro _; linarith
    · intro _; exact Or.inl hq
  · have hq' : (q:ℝ) ≤ 1 := by
      have : q ≤ 1 := le_of_not_lt hq
      exact_mod_cast this
    have h0 : (0:ℝ) ≤ 1 - (q:ℝ) := by linarith
    constructor
    · rintro (h | h)
      · exact absurd h hq
      · have : ((1 - q : ℚ):ℝ) ^ 2 < (r:ℝ) := by exact_mod_cast h
        have h2 : (1 - (q:ℝ)) ^ 2 < (r:ℝ) := by push_cast at this; linarith
        have := (Real.lt_sqrt h0).mpr h2
        linarith
    · intro h
      refine Or.inr ?_
      have h2 : 1 - (q:ℝ) < Real.sqrt (r:ℝ) := by linarith
      have h3 : (1 - (q:ℝ)) ^ 2 < (r:ℝ) := (Real.lt_sqrt h0).mp h2
      exact_mod_cast (by push_cast; linarith : ((1 - q : ℚ):ℝ) ^ 2 < (r:ℝ))

/-! Nonnegativity of the radicands appearing in this development. -/

theorem diagSq_ge_one (a b : Box) : (1:ℚ) ≤ diagSq a b := by
  unfold diagSq
  exact le_max_of_le_right (le_max_right _ _)

theorem centerRatioSq_nonneg (a b : Box) : (0:ℚ) ≤ centerRatioSq a b := by
  unfold centerRatioSq centerDistSq
  refine div_nonneg (by positivity) ?_
  linarith [diagSq_ge_one a b]

theorem descDistSq_nonneg (a b : List ℚ) : (0:ℚ) ≤ descDistSq a b := by
  unfold descDistSq
  refine List.sum_nonneg ?_
  intro x hx
  rw [List.mem_map] at hx
  obtain ⟨p, _, rfl⟩ := hx
  positivity

/-- Claim C1 (corrected), counterexample: with the tracker's default
thresholds, the pair of concentric boxes `(0,0,10,10)` and
`(-100,-100,110,110)` is eligible only through the center-distance
fallback (its IoU is about `0.002`, far below `match_iou = 0.2`) and
scores `1 - 0 = 1`, while the IoU-eligible pair of two identical unit
boxes scores about `0.999999`; the fallback score is NOT strictly less —
here it is strictly greater.  This refutes the claim that every
fallback-eligible pair scores strictly below every IoU-eligible pair. -/
theorem c1_counterexample :
    pairScore Tracker.init.matchIou Tracker.init.matchCenter
        ⟨0, 0, 10, 10⟩ ⟨-100, -100, 110, 110⟩ = some (.oneMinusSqrt 0)
      ∧ pairScore Tracker.init.matchIou Tracker.init.matchCenter
          ⟨0, 0, 1, 1⟩ ⟨0, 0, 1, 1⟩ = some (.ofQ (1000000/1000001))
      ∧ ¬ SVal.lt (.oneMinusSqrt 0) (.ofQ (1000000/1000001)) := by
  refine ⟨?_, ?_, ?_⟩
  · norm_num [pairScore, iouQ, centerRatioSq, centerDistSq, diagSq, Tracker.init]
  · norm_num [pairScore, iouQ, Tracker.init]
  · norm_num [SVal.lt]

/-- Claim C1 (amended): a pair eligible only via the center-distance
fallback receives the score `1 - ratio`; this is strictly less than the
score of an IoU-eligible pair only when that pair's IoU exceeds
`1 - match_center_ratio` (`0.65` at the defaults) — fallback scores are
not below IoU scores in general. -/
theorem c1_amended (t d t' d' : Box) (r q : ℚ)
    (hc : pairScore Tracker.init.matchIou Tracker.init.matchCenter t d =
            some (.oneMinusSqrt r))
    (hi : pairScore Tracker.init.matchIou Tracker.init.matchCenter t' d' =
            some (.ofQ q))
    (hlt : SVal.lt (.oneMinusSqrt r) (.ofQ q)) :
    1 - Tracker.init.matchCenter < q := by
  simp only [Tracker.init] at hc hi ⊢
  have hr : r ≤ (7/20 : ℚ) ^ 2 := by
    unfold pairScore at hc
    dsimp only at hc
    split_ifs at hc with h1 h2 h3 h4 <;> simp at hc
    rw [← hc]
    exact h3
  simp only [SVal.lt] at hlt
  rcases hlt with h | h
  · linarith
  · nlinarith [h, hr]

/-- Witness for `c1_amended`: a concrete fallback-eligible pair with
squared ratio `2/11025` is out-scored by an IoU pair of IoU
`1000000/1000001 > 0.65`. -/
theorem c1_amended_witness :
    pairScore Tracker.init.matchIou Tracker.init.matchCenter
        ⟨0, 0, 10, 10⟩ ⟨-96, -100, 114, 110⟩ = some (.oneMinusSqrt (2/11025))
      ∧ pairScore Tracker.init.matchIou Tracker.init.matchCenter
          ⟨0, 0, 1, 1⟩ ⟨0, 0, 1, 1⟩ = some (.ofQ (1000000/1000001))
      ∧ SVal.lt (.oneMinusSqrt (2/11025)) (.ofQ (1000000/1000001))
      ∧ 1 - Tracker.init.matchCenter < 1000000/1000001 := by
  have h1 : pairScore Tracker.init.matchIou Tracker.init.matchCenter
      ⟨0, 0, 10, 10⟩ ⟨-96, -100, 114, 110⟩ = some (.oneMinusSqrt (2/11025)) := by
    norm_num [pairScore, iouQ, centerRatioSq, centerDistSq, diagSq, Tracker.init]
  have h2 : pairScore Tracker.init.matchIou Tracker.init.matchCenter
      ⟨0, 0, 1, 1⟩ ⟨0, 0, 1, 1⟩ = some (.ofQ (1000000/1000001)) := by
    norm_num [pairScore, iouQ, Tracker.init]
  have h3 : SVal.lt (.oneMinusSqrt (2/11025)) (.ofQ (1000000/1000001)) := by
    norm_num [SVal.lt]
  exact ⟨h1, h2, h3,
    c1_amended ⟨0, 0, 10, 10⟩ ⟨-96, -100, 114, 110⟩ ⟨0, 0, 1, 1⟩ ⟨0, 0, 1, 1⟩
      (2/11025) (1000000/1000001) h1 h2 h3⟩

/-! Structure lemmas about the `update` pipeline. -/

theorem applyMatches_map_fst (tracks : List (ℕ × TrackState))
    (matchList : List (ℕ × ℕ)) (dets : List Detection) :
    (applyMatches tracks matchList dets).map Prod.fst = tracks.map Prod.fst := by
  unfold applyMatches
  rw [List.map_map]
  refine List.map_congr_left ?_
  intro p _
  simp only [Function.comp_apply]
  cases hm : alookup p.1 matchList with
  | none => rfl
  | some dIdx =>
    cases hd : dets[dIdx]? with
    | none => simp [hd]
    | some det => simp [hd]

theorem alookup_applyMatches_none {tid : ℕ} (tracks : List (ℕ × TrackState))
    {matchList : List (ℕ × ℕ)} (dets : List Detection)
    (h : alookup tid matchList = none) :
    alookup tid (applyMatches tracks matchList dets) = alookup tid tracks := by
  unfold applyMatches
  induction tracks with
  | nil => simp [alookup]
  | cons p rest ih =>
    simp only [List.map_cons]
    by_cases hp : p.1 = tid
    · subst hp
      simp only [h]
      simp [alookup]
    · cases hm : alookup p.1 matchList with
      | none => simp [alookup, hm, hp, ih]
      | some dIdx =>
        cases hd : dets[dIdx]? with
        | none => simp [alookup, hm, hd, hp, ih]
        | some det => simp [alookup, hm, hd, hp, ih]

theorem applyLost_map_fst_sublist (m : ℕ) (u : List ℕ)
    (l : List (ℕ × TrackState)) :
    List.Sublist ((applyLost m u l).map Prod.fst) (l.map Prod.fst) := by
  unfold applyLost
  induction l with
  | nil => simp
  | cons p rest ih =>
    by_cases hu : p.1 ∈ u
    · by_cases hl : m < p.2.lost + 1
      · simp only [List.filterMap_cons, hu, if_true, hl]
        exact List.Sublist.cons _ ih
      · simp only [List.filterMap_cons, hu, if_true, if_neg hl]
        exact List.Sublist.cons₂ _ ih
    · simp only [List.filterMap_cons, hu, if_false]
      exact List.Sublist.cons₂ _ ih

theorem alookup_applyLost (m : ℕ) (u : List ℕ) (l : List (ℕ × TrackState))
    (tid : ℕ) (hnd : (l.map Prod.fst).Nodup) :
    alookup tid (applyLost m u l) =
      match alookup tid l with
      | none => none
      | some st =>
        if tid ∈ u then
          if m < st.lost + 1 then none
          else some { st with lost := st.lost + 1 }
        else some st := by
  induction l with
  | nil => simp [applyLost, alookup]
  | cons p rest ih =>
    simp only [List.map_cons, List.nodup_cons] at hnd
    have ihr := ih hnd.2
    by_cases hp : p.1 = tid
    · subst hp
      have hnone : alookup p.1 rest = none := by
        rw [alookup_eq_none]
        exact hnd.1
      have hnone2 : alookup p.1 (applyLost m u rest) = none := by
        rw [alookup_eq_none]
        intro hmem
        exact hnd.1 ((applyLost_map_fst_sublist m u rest).mem hmem)
      by_cases hu : p.1 ∈ u
      · by_cases hl : m < p.2.lost + 1
        · simp only [applyLost, List.filterMap_cons, hu, if_true, hl]
          simp only [alookup, hu, hl, if_true]
          simpa [applyLost] using hnone2
        · simp only [applyLost, List.filterMap_cons, hu, if_true, if_neg hl]
          simp [alookup, hu, hl]
      · simp only [applyLost, List.filterMap_cons, hu, if_false]
        simp [alookup, hu]
    · by_cases hu : p.1 ∈ u
      · by_cases hl : m < p.2.lost + 1
        · simp only [applyLost, List.filterMap_cons, hu, if_true, hl]
          simpa [applyLost, alookup, hp] using ihr
        · simp only [applyLost, List.filterMap_cons, hu, if_true, if_neg hl]
          simp only [alookup, hp, if_false]
          simpa [applyLost] using ihr
      · simp only [applyLost, List.filterMap_cons, hu, if_false]
        simp only [alookup, hp, if_false]
        simpa [applyLost] using ihr

theorem applyLost_eq_filterMap (m : ℕ) (u : List ℕ) (l : List (ℕ × TrackState))
    (h : ∀ p ∈ l, p.1 ∈ u) :
    applyLost m u l =
      l.filterMap (fun p =>
        if m < p.2.lost + 1 then none
        else some (p.1, { p.2 with lost := p.2.lost + 1 })) := by
  unfold applyLost
  induction l with
  | nil => simp
  | cons p rest ih =>
    have hp : p.1 ∈ u := h p (List.mem_cons_self p rest)
    have hrest : ∀ q ∈ rest, q.1 ∈ u := fun q hq => h q (List.mem_cons_of_mem p hq)
    simp only [List.filterMap_cons, hp, if_true, ih hrest]

theorem registerFoldAll (dets : List Detection) (t : Tracker) :
    ∃ ext : List (ℕ × TrackState),
      (dets.foldl (fun t d => (t.register d).1) t).tracks = t.tracks ++ ext
        ∧ ext.map Prod.fst = List.range' t.nextId dets.length
        ∧ (dets.foldl (fun t d => (t.register d).1) t).nextId = t.nextId + dets.length
        ∧ (dets.foldl (fun t d => (t.register d).1) t).maxLost = t.maxLost := by
  induction dets generalizing t with
  | nil => exact ⟨[], by simp⟩
  | cons d ds ih =>
    obtain ⟨ext, h1, h2, h3, h4⟩ := ih (t.register d).1
    refine ⟨(t.nextId, ⟨d.bbox, d.cls, d.conf, 0⟩) :: ext, ?_, ?_, ?_, ?_⟩
    · simp only [List.foldl_cons]
      rw [h1]
      simp [Tracker.register]
    · rw [List.map_cons, h2]
      simp only [Tracker.register, List.length_cons]
      rw [List.range'_succ]
    · simp only [List.foldl_cons]
      rw [h3]
      simp only [Tracker.register, List.length_cons]
      omega
    · simp only [List.foldl_cons]
      rw [h4]
      simp [Tracker.register]

theorem registerFoldIdx (dets : List Detection) (ixs : List ℕ) (t : Tracker)
    (h : ∀ i ∈ ixs, i < dets.length) :
    ∃ ext : List (ℕ × TrackState),
      (ixs.foldl (fun t i =>
          match dets[i]? with
          | some det => (t.register det).1
          | none => t) t).tracks = t.tracks ++ ext
        ∧ ext.map Prod.fst = List.range' t.nextId ixs.length
        ∧ (ixs.foldl (fun t i =>
            match dets[i]? with
            | some det => (t.register det).1
            | none => t) t).nextId = t.nextId + ixs.length
        ∧ (ixs.foldl (fun t i =>
            match dets[i]? with
            | some det => (t.register det).1
            | none => t) t).maxLost = t.maxLost := by
  induction ixs generalizing t with
  | nil => exact ⟨[], by simp⟩
  | cons i ixs ih =>
    have hi : i < dets.length := h i (List.mem_cons_self i ixs)
    have hrest : ∀ j ∈ ixs, j < dets.length :=
      fun j hj => h j (List.mem_cons_of_mem i hj)
    obtain ⟨ext, h1, h2, h3, h4⟩ := ih (t.register dets[i]).1 hrest
    refine ⟨(t.nextId, ⟨dets[i].bbox, dets[i].cls, dets[i].conf, 0⟩) :: ext,
      ?_, ?_, ?_, ?_⟩
    · simp only [List.foldl_cons, List.getElem?_eq_getElem hi]
      rw [h1]
      simp [Tracker.register]
    · rw [List.map_cons, h2]
      simp only [Tracker.register, List.length_cons]
      rw [List.range'_succ]
    · simp only [List.foldl_cons, List.getElem?_eq_getElem hi]
      rw [h3]
      simp only [Tracker.register, List.length_cons]
      omega
    · simp only [List.foldl_cons, List.getElem?_eq_getElem hi]
      rw [h4]
      simp [Tracker.register]

theorem update_empty (tr : Tracker) (dets : List Detection)
    (h : tr.tracks = []) :
    tr.update dets =
      (dets.foldl (fun t d => (t.register d).1) tr,
       (dets.foldl (fun t d => (t.register d).1) tr).tracks.map buildObj) := by
  have hb : tr.tracks.isEmpty = true := by simp [h]
  simp only [Tracker.update, hb, if_true]

theorem update_nonempty (tr : Tracker) (dets : List Detection)
    (h : tr.tracks ≠ []) :
    tr.update dets =
      (let M := greedyMatches tr dets
       let tr1 : Tracker := { tr with tracks := applyMatches tr.tracks M dets }
       let tr2 := ((List.range dets.length).filter
           (fun i => decide (i ∉ M.map Prod.snd))).foldl
         (fun t i =>
           match dets[i]? with
           | some det => (t.register det).1
           | none => t) tr1
       let unmatched := (tr.tracks.map Prod.fst).filter
         (fun k => decide (k ∉ M.map Prod.fst))
       let tracks3 := applyLost tr.maxLost unmatched tr2.tracks
       ({ tr2 with
           nextId := if tracks3.isEmpty then 1 else tr2.nextId,
           tracks := tracks3 },
        tracks3.map buildObj)) := by
  have hb : tr.tracks.isEmpty = false := by rw [List.isEmpty_eq_false]; exact h
  simp only [Tracker.update, hb, Bool.false_eq_true, if_false]

theorem update_shape (tr : Tracker) (dets : List Detection) :
    ∃ m : ℕ,
      (tr.update dets).1.maxLost = tr.maxLost
        ∧ List.Sublist ((tr.update dets).1.tracks.map Prod.fst)
            (tr.tracks.map Prod.fst ++ List.range' tr.nextId m)
        ∧ ((tr.update dets).1.tracks ≠ [] →
             (tr.update dets).1.nextId = tr.nextId + m)
        ∧ (tr.tracks ≠ [] → (tr.update dets).1.tracks = [] →
             (tr.update dets).1.nextId = 1)
        ∧ (tr.tracks = [] →
             (((tr.update dets).1.tracks = [] ↔ dets = [])
               ∧ (tr.update dets).1.nextId = tr.nextId + dets.length
               ∧ m = dets.length)) := by
  by_cases hemp : tr.tracks = []
  · obtain ⟨ext, h1, h2, h3, h4⟩ := registerFoldAll dets tr
    rw [update_empty tr dets hemp]
    refine ⟨dets.length, h4, ?_, fun _ => h3, fun hne => absurd hemp hne, ?_⟩
    · rw [h1, List.map_append, h2]
    · intro _
      refine ⟨?_, h3, rfl⟩
      constructor
      · intro he
        have hext : ext = [] := by
          rw [h1, hemp, List.nil_append] at he
          exact he
        rw [hext] at h2
        simp only [List.map_nil] at h2
        have hlen : dets.length = 0 := List.range'_eq_nil.mp h2.symm
        exact List.length_eq_zero.mp hlen
      · intro he
        subst he
        simp only [List.length_nil] at h2
        rw [h1, hemp, List.nil_append]
        have hm : ext.map Prod.fst = [] := by rw [h2]; rfl
        exact List.map_eq_nil_iff.mp hm
  · rw [update_nonempty tr dets hemp]
    dsimp only
    set M := greedyMatches tr dets with hM
    set ixs := (List.range dets.length).filter
      (fun i => decide (i ∉ M.map Prod.snd)) with hixs
    set tr1 : Tracker :=
      { tr with tracks := applyMatches tr.tracks M dets } with htr1
    set tr2 := ixs.foldl
      (fun t i =>
        match dets[i]? with
        | some det => (t.register det).1
        | none => t) tr1 with htr2
    set U := (tr.tracks.map Prod.fst).filter
      (fun k => decide (k ∉ M.map Prod.fst)) with hU
    set T3 := applyLost tr.maxLost U tr2.tracks with hT3
    have hbound : ∀ i ∈ ixs, i < dets.length := by
      intro i hi
      rw [hixs] at hi
      exact List.mem_range.mp (List.mem_filter.mp hi).1
    obtain ⟨ext, h1, h2, h3, h4⟩ := registerFoldIdx dets ixs tr1 hbound
    rw [← htr2] at h1 h3 h4
    refine ⟨ixs.length, ?_, ?_, ?_, ?_, fun he => absurd he hemp⟩
    · show tr2.maxLost = tr.maxLost
      rw [h4, htr1]
    · show List.Sublist (T3.map Prod.fst) _
      refine List.Sublist.trans (hT3 ▸ applyLost_map_fst_sublist _ _ _) ?_
      rw [h1, List.map_append, htr1]
      dsimp only
      rw [applyMatches_map_fst, h2, htr1]
    · intro hne
      have hb : T3.isEmpty = false := by
        rw [List.isEmpty_eq_false]
        exact hne
      show (if T3.isEmpty = true then 1 else tr2.nextId) = tr.nextId + ixs.length
      rw [hb]
      simp only [Bool.false_eq_true, if_false]
      rw [h3, htr1]
    · intro _ he
      show (if T3.isEmpty = true then 1 else tr2.nextId) = 1
      rw [he]
      rfl

theorem trackerInv_update (tr : Tracker) (dets : List Detection)
    (hInv : TrackerInv tr) : TrackerInv (tr.update dets).1 := by
  obtain ⟨hnd, hbounds, hpos, hempz⟩ := hInv
  obtain ⟨m, hml, hsub, hno, hres, hemp5⟩ := update_shape tr dets
  have hnd2 : ((tr.update dets).1.tracks.map Prod.fst).Nodup := by
    refine hsub.nodup ?_
    refine List.Nodup.append hnd (List.nodup_range' _ _) ?_
    intro k hk hk'
    have := (hbounds k hk).2
    rw [List.mem_range'_1] at hk'
    omega
  refine ⟨hnd2, ?_, ?_, ?_⟩
  · intro k hk
    have hne : (tr.update dets).1.tracks ≠ [] := by
      intro he
      rw [he] at hk
      simp at hk
    rcases List.mem_append.mp (List.Sublist.mem hk hsub) with hin | hin
    · obtain ⟨h1, h2⟩ := hbounds k hin
      rw [hno hne]
      omega
    · rw [List.mem_range'_1] at hin
      rw [hno hne]
      omega
  · by_cases he : (tr.update dets).1.tracks = []
    · by_cases hemp : tr.tracks = []
      · obtain ⟨_, hn, _⟩ := hemp5 hemp
        omega
      · rw [hres hemp he]
    · rw [hno he]
      omega
  · intro he
    by_cases hemp : tr.tracks = []
    · obtain ⟨hiff, hn, _⟩ := hemp5 hemp
      have hd : dets = [] := hiff.mp he
      subst hd
      simp only [List.length_nil] at hn
      have h1 := hempz hemp
      omega
    · exact hres hemp he

theorem absent_stays (detss : List (List Detection)) :
    ∀ tr tid, TrackerInv tr → tid ∉ tr.tracks.map Prod.fst →
      tid < tr.nextId → noResetChain tr detss →
      tid ∉ (updateSeq tr detss).tracks.map Prod.fst := by
  induction detss with
  | nil =>
    intro tr tid _ h2 _ _
    simpa [updateSeq] using h2
  | cons ds rest ih =>
    intro tr tid hInv h2 h3 hchain
    obtain ⟨hne, hchain'⟩ := hchain
    obtain ⟨m, _, hsub, hno, _, _⟩ := update_shape tr ds
    have hkeys : tid ∉ (tr.update ds).1.tracks.map Prod.fst := by
      intro hmem
      rcases List.mem_append.mp (List.Sublist.mem hmem hsub) with hin | hin
      · exact h2 hin
      · rw [List.mem_range'_1] at hin
        omega
    have hnext : tid < (tr.update ds).1.nextId := by
      rw [hno hne]
      omega
    have := ih (tr.update ds).1 tid (trackerInv_update tr ds hInv) hkeys hnext hchain'
    simpa [updateSeq] using this

theorem alookup_update_unmatched (tr : Tracker) (dets : List Detection)
    (tid : ℕ) (st : TrackState) (hInv : TrackerInv tr)
    (hmem : alookup tid tr.tracks = some st)
    (hun : tid ∉ (greedyMatches tr dets).map Prod.fst) :
    alookup tid (tr.update dets).1.tracks =
      if tr.maxLost < st.lost + 1 then none
      else some { st with lost := st.lost + 1 } := by
  have hemp : tr.tracks ≠ [] := by
    intro he
    rw [he] at hmem
    simp [alookup] at hmem
  have htidk : tid ∈ tr.tracks.map Prod.fst :=
    List.mem_map.mpr ⟨(tid, st), alookup_mem hmem, rfl⟩
  rw [update_nonempty tr dets hemp]
  dsimp only
  set M := greedyMatches tr dets with hM
  set ixs := (List.range dets.length).filter
    (fun i => decide (i ∉ M.map Prod.snd)) with hixs
  set tr1 : Tracker :=
    { tr with tracks := applyMatches tr.tracks M dets } with htr1
  set tr2 := ixs.foldl
    (fun t i =>
      match dets[i]? with
      | some det => (t.register det).1
      | none => t) tr1 with htr2
  set U := (tr.tracks.map Prod.fst).filter
    (fun k => decide (k ∉ M.map Prod.fst)) with hU
  have hbound : ∀ i ∈ ixs, i < dets.length := by
    intro i hi
    rw [hixs] at hi
    exact List.mem_range.mp (List.mem_filter.mp hi).1
  obtain ⟨ext, h1, h2, _, _⟩ := registerFoldIdx dets ixs tr1 hbound
  rw [← htr2] at h1
  have hnd2 : (tr2.tracks.map Prod.fst).Nodup := by
    rw [h1, List.map_append, htr1]
    dsimp only
    rw [applyMatches_map_fst, h2, htr1]
    dsimp only
    refine List.Nodup.append hInv.1 (List.nodup_range' _ _) ?_
    intro k hk hk'
    have := (hInv.2.1 k hk).2
    rw [List.mem_range'_1] at hk'
    omega
  have hl2 : alookup tid tr2.tracks = some st := by
    rw [h1, alookup_append, htr1]
    dsimp only
    rw [alookup_applyMatches_none _ _ (alookup_eq_none.mpr hun), hmem]
  have htidU : tid ∈ U := by
    rw [hU]
    rw [List.mem_filter]
    exact ⟨htidk, by simpa using hun⟩
  rw [alookup_applyLost _ _ _ _ hnd2, hl2]
  simp only [htidU, if_true]

/-- Claim C2 (confirmed): an unmatched live track has its `lost` counter
incremented by exactly 1 per update; it survives with the new counter
unless the counter now exceeds `max_lost`, in which case it is removed
immediately, and after such a removal the identity never occurs in any
later live-track list as long as no later update ends with an empty live
set (i.e. until the identity counter is reset). -/
theorem c2_lost_expiry (tr : Tracker) (dets : List Detection) (tid : ℕ)
    (st : TrackState) (hInv : TrackerInv tr)
    (hmem : alookup tid tr.tracks = some st)
    (hun : tid ∉ (greedyMatches tr dets).map Prod.fst) :
    (alookup tid (tr.update dets).1.tracks =
       if tr.maxLost < st.lost + 1 then none
       else some { st with lost := st.lost + 1 })
      ∧ (tr.maxLost < st.lost + 1 →
           ∀ detss, (tr.update dets).1.tracks ≠ [] →
             noResetChain (tr.update dets).1 detss →
             alookup tid (updateSeq (tr.update dets).1 detss).tracks = none) := by
  have h1 := alookup_update_unmatched tr dets tid st hInv hmem hun
  refine ⟨h1, ?_⟩
  intro hexp detss hne hchain
  have habs : tid ∉ (tr.update dets).1.tracks.map Prod.fst := by
    rw [← alookup_eq_none, h1]
    simp [hexp]
  have htid_lt : tid < (tr.update dets).1.nextId := by
    obtain ⟨m, _, _, hno, _, _⟩ := update_shape tr dets
    rw [hno hne]
    have hk : tid ∈ tr.tracks.map Prod.fst :=
      List.mem_map.mpr ⟨(tid, st), alookup_mem hmem, rfl⟩
    have := (hInv.2.1 tid hk).2
    omega
  rw [alookup_eq_none]
  exact absent_stays detss _ tid (trackerInv_update tr dets hInv) habs htid_lt hchain

/-- Witness for `c2_lost_expiry`: in `trackerW`, track 1 sits at
`lost = max_lost = 45`; one update with no detections removes it, and it
stays absent over a further reset-free update. -/
theorem c2_witness :
    alookup 1 (trackerW.update []).1.tracks = none
      ∧ alookup 1 (updateSeq (trackerW.update []).1 [[]]).tracks = none := by
  have h := c2_lost_expiry trackerW [] 1 ⟨boxA, 0, 1, 45⟩
    (by decide) (by decide) (by decide)
  constructor
  · rw [h.1]
    decide
  · exact h.2 (by decide) [[]] (by decide) ⟨by decide, trivial⟩

theorem candidates_nil (tr : Tracker) : candidates tr [] = [] := by
  unfold candidates
  induction tr.tracks with
  | nil => rfl
  | cons p rest ih => simpa using ih

theorem greedyMatches_nil (tr : Tracker) : greedyMatches tr [] = [] := by
  unfold greedyMatches
  rw [candidates_nil]
  rfl

theorem applyMatches_nil_matches (tracks : List (ℕ × TrackState))
    (dets : List Detection) : applyMatches tracks [] dets = tracks := by
  unfold applyMatches
  induction tracks with
  | nil => rfl
  | cons p rest ih =>
    simp only [List.map_cons]
    rw [ih]
    rfl

/-- Claim C10 (confirmed): an update with an empty detection list keeps
every surviving track's identity, box, class and confidence, increments
each `lost` counter by exactly 1, removes exactly the tracks whose
counter then exceeds `max_lost`, creates no track, and resets the
identity counter only when nothing survives. -/
theorem c10_empty_detections (tr : Tracker) (h : tr.tracks ≠ []) :
    (tr.update []).1.tracks =
        tr.tracks.filterMap (fun p =>
          if tr.maxLost < p.2.lost + 1 then none
          else some (p.1, { p.2 with lost := p.2.lost + 1 }))
      ∧ (tr.update []).2 = (tr.update []).1.tracks.map buildObj
      ∧ (tr.update []).1.nextId =
          (if (tr.update []).1.tracks = [] then 1 else tr.nextId) := by
  have hT3 : applyLost tr.maxLost
      ((tr.tracks.map Prod.fst).filter
        (fun k => decide (k ∉ ([] : List (ℕ × ℕ)).map Prod.fst)))
      tr.tracks =
        tr.tracks.filterMap (fun p =>
          if tr.maxLost < p.2.lost + 1 then none
          else some (p.1, { p.2 with lost := p.2.lost + 1 })) := by
    have hfilter : (tr.tracks.map Prod.fst).filter
        (fun k => decide (k ∉ ([] : List (ℕ × ℕ)).map Prod.fst)) =
          tr.tracks.map Prod.fst := by
      rw [List.filter_eq_self]
      intro a _
      simp
    rw [hfilter]
    refine applyLost_eq_filterMap _ _ _ ?_
    intro p hp
    exact List.mem_map.mpr ⟨p, hp, rfl⟩
  rw [update_nonempty tr [] h]
  dsimp only
  rw [greedyMatches_nil]
  simp only [List.length_nil, List.range_zero, List.filter_nil, List.foldl_nil]
  rw [applyMatches_nil_matches]
  refine ⟨hT3, by trivial, ?_⟩
  simp only [List.isEmpty_iff]

/-- Witness for `c10_empty_detections` on the concrete state `trackerW`:
track 1 (at the expiry bound) disappears, track 2 survives with
`lost = 1`, and the counter stays at 3. -/
theorem c10_witness :
    (trackerW.update []).1.tracks = [(2, ⟨⟨20, 20, 30, 30⟩, 0, 1, 1⟩)]
      ∧ (trackerW.update []).1.nextId = 3 := by
  have h := c10_empty_detections trackerW (by decide)
  constructor
  · rw [h.1]
    decide
  · rw [h.2.2]
    decide

/-- Claim C8 (confirmed): `update` preserves the tracker invariant (in
particular live identities stay pairwise distinct), `_register` hands
out `_next_id`, which is strictly greater than every live identity, and
after any update the counter equals 1 exactly when the live set ended
empty. -/
theorem c8_identity (tr : Tracker) (hInv : TrackerInv tr) :
    (∀ dets, TrackerInv (tr.update dets).1)
      ∧ (∀ d : Detection,
           (tr.register d).2 = tr.nextId
             ∧ ∀ k ∈ tr.tracks.map Prod.fst, k < (tr.register d).2)
      ∧ (∀ dets,
           ((tr.update dets).1.nextId = 1 ↔ (tr.update dets).1.tracks = [])) := by
  refine ⟨fun dets => trackerInv_update tr dets hInv, ?_, ?_⟩
  · intro d
    refine ⟨rfl, ?_⟩
    intro k hk
    exact (hInv.2.1 k hk).2
  · intro dets
    constructor
    · intro h1
      by_contra hne
      obtain ⟨m, _, _, hno, _, hemp5⟩ := update_shape tr dets
      have heq := hno hne
      rw [h1] at heq
      have hpos := hInv.2.2.1
      have htr : tr.tracks = [] := by
        by_contra htr
        obtain ⟨p, hp⟩ := List.exists_mem_of_ne_nil tr.tracks htr
        have := hInv.2.1 p.1 (List.mem_map.mpr ⟨p, hp, rfl⟩)
        omega
      obtain ⟨hiff, _, hm⟩ := hemp5 htr
      have hd : dets = [] := List.length_eq_zero.mp (by omega)
      exact hne (hiff.mpr hd)
    · intro h1
      exact (trackerInv_update tr dets hInv).2.2.2 h1

/-- Witness for `c8_identity` on `trackerW`. -/
theorem c8_witness :
    TrackerInv (trackerW.update []).1
      ∧ (trackerW.register detW).2 = 3
      ∧ ((trackerW.update []).1.nextId = 1 ↔ (trackerW.update []).1.tracks = []) := by
  have h := c8_identity trackerW (by decide)
  refine ⟨h.1 [], ?_, h.2.2 []⟩
  rw [(h.2.1 detW).1]
  decide

/-! Registry helper lemmas. -/

theorem boundSlotOk_iff {mem : List (ℕ × SlotInfo)} {p : ℕ × ℕ} :
    boundSlotOk mem p ↔
      ∃ info, alookup p.2 mem = some info ∧ info.track_id = some p.1 := by
  unfold boundSlotOk
  cases h : alookup p.2 mem <;> simp [h, Option.elim]

theorem slotBoundTo_some {sel : List (ℕ × ℕ)} {slot t : ℕ} :
    slotBoundTo sel slot (some t) ↔ alookup t sel = some slot :=
  Iff.rfl

theorem slotBoundTo_none (sel : List (ℕ × ℕ)) (slot : ℕ) :
    slotBoundTo sel slot none :=
  trivial

theorem aset_of_not_mem {α : Type} {k : ℕ} (v : α) {l : List (ℕ × α)}
    (h : k ∉ l.map Prod.fst) : aset k v l = l ++ [(k, v)] := by
  unfold aset
  rw [if_neg h]

theorem mem_aset_cases {α : Type} {k : ℕ} {v : α} {l : List (ℕ × α)}
    {p : ℕ × α} (h : p ∈ aset k v l) :
    p = (k, v) ∨ (p ∈ l ∧ p.1 ≠ k) := by
  unfold aset at h
  by_cases hm : k ∈ l.map Prod.fst
  · rw [if_pos hm] at h
    rw [List.mem_map] at h
    obtain ⟨q, hq, hpq⟩ := h
    by_cases hqk : q.1 = k
    · rw [if_pos hqk] at hpq
      exact Or.inl hpq.symm
    · rw [if_neg hqk] at hpq
      exact Or.inr ⟨hpq ▸ hq, hpq ▸ hqk⟩
  · rw [if_neg hm] at h
    rcases List.mem_append.mp h with h1 | h1
    · refine Or.inr ⟨h1, ?_⟩
      intro he
      exact hm (List.mem_map.mpr ⟨p, h1, he⟩)
    · simp at h1
      exact Or.inl h1

theorem mem_amodify_cases {α : Type} {k : ℕ} {f : α → α} {l : List (ℕ × α)}
    {p : ℕ × α} (h : p ∈ amodify k f l) :
    (∃ v, (k, v) ∈ l ∧ p = (k, f v)) ∨ (p ∈ l ∧ p.1 ≠ k) := by
  unfold amodify at h
  rw [List.mem_map] at h
  obtain ⟨q, hq, hpq⟩ := h
  by_cases hqk : q.1 = k
  · rw [if_pos hqk] at hpq
    refine Or.inl ⟨q.2, ?_, hpq.symm⟩
    have : q = (k, q.2) := by
      rw [← hqk]
    rw [← this]
    exact hq
  · rw [if_neg hqk] at hpq
    exact Or.inr ⟨hpq ▸ hq, hpq ▸ hqk⟩

theorem mem_aerase {α : Type} {k : ℕ} {l : List (ℕ × α)} {p : ℕ × α}
    (h : p ∈ aerase k l) : p ∈ l ∧ p.1 ≠ k := by
  unfold aerase at h
  rw [List.mem_filter] at h
  exact ⟨h.1, by simpa using h.2⟩

theorem filter_ne_map_setKey {α : Type} (k : ℕ) (v : α) (l : List (ℕ × α)) :
    List.filter (fun p => decide (p.1 ≠ k))
        (l.map (fun p => if p.1 = k then (k, v) else p)) =
      List.filter (fun p => decide (p.1 ≠ k)) l := by
  induction l with
  | nil => rfl
  | cons p rest ih =>
    by_cases hp : p.1 = k
    · simp only [List.map_cons, if_pos hp, List.filter_cons]
      have h1 : (decide ((k, v).1 ≠ k)) = false := by simp
      have h2 : (decide (p.1 ≠ k)) = false := by simp [hp]
      rw [h1, h2]
      simp only [Bool.false_eq_true, if_false]
      exact ih
    · simp only [List.map_cons, if_neg hp, List.filter_cons]
      have h2 : (decide (p.1 ≠ k)) = true := by simp [hp]
      rw [h2]
      simp only [if_true]
      rw [ih]

theorem aerase_aset_self {α : Type} (k : ℕ) (v : α) (l : List (ℕ × α)) :
    aerase k (aset k v l) = aerase k l := by
  unfold aset
  by_cases hm : k ∈ l.map Prod.fst
  · rw [if_pos hm]
    exact filter_ne_map_setKey k v l
  · rw [if_neg hm]
    unfold aerase
    rw [List.filter_append]
    have : List.filter (fun p => decide (p.1 ≠ k)) [(k, v)] = [] := by
      simp
    rw [this, List.append_nil]

theorem mem_insertSorted {p q : ℕ × SlotInfo} {l : List (ℕ × SlotInfo)} :
    q ∈ insertSorted p l ↔ q = p ∨ q ∈ l := by
  induction l with
  | nil => simp [insertSorted]
  | cons r rest ih =>
    unfold insertSorted
    by_cases h : p.1 ≤ r.1
    · simp [h]
    · simp only [if_neg h, List.mem_cons, ih]
      tauto

theorem pairwise_insertSorted {p : ℕ × SlotInfo} {l : List (ℕ × SlotInfo)}
    (hs : l.Pairwise (fun a b => a.1 ≤ b.1)) :
    (insertSorted p l).Pairwise (fun a b => a.1 ≤ b.1) := by
  induction l with
  | nil => simp [insertSorted]
  | cons r rest ih =>
    rw [List.pairwise_cons] at hs
    unfold insertSorted
    by_cases h : p.1 ≤ r.1
    · rw [if_pos h]
      refine List.Pairwise.cons ?_ (List.Pairwise.cons hs.1 hs.2)
      intro b hb
      rcases List.mem_cons.mp hb with hb | hb
      · rw [hb]
        exact h
      · exact le_trans h (hs.1 b hb)
    · rw [if_neg h]
      refine List.Pairwise.cons ?_ (ih hs.2)
      intro b hb
      rcases mem_insertSorted.mp hb with hb | hb
      · rw [hb]
        omega
      · exact hs.1 b hb

theorem mem_sortMem {q : ℕ × SlotInfo} {l : List (ℕ × SlotInfo)} :
    q ∈ sortMem l ↔ q ∈ l := by
  induction l with
  | nil => simp [sortMem]
  | cons p rest ih =>
    unfold sortMem
    rw [mem_insertSorted, ih]
    simp

theorem pairwise_sortMem (l : List (ℕ × SlotInfo)) :
    (sortMem l).Pairwise (fun a b => a.1 ≤ b.1) := by
  induction l with
  | nil => simp [sortMem]
  | cons p rest ih =>
    unfold sortMem
    exact pairwise_insertSorted ih

theorem find?_min_of_pairwise {α : Type} (f : α → ℕ) {p : α → Bool}
    {l : List α} {a : α}
    (hs : l.Pairwise (fun x y => f x ≤ f y)) (h : l.find? p = some a) :
    ∀ b ∈ l, p b = true → f a ≤ f b := by
  induction l with
  | nil => simp at h
  | cons q rest ih =>
    rw [List.pairwise_cons] at hs
    rw [List.find?_cons] at h
    cases hq : p q with
    | true =>
      rw [hq] at h
      have hqa : q = a := Option.some_inj.mp h
      subst hqa
      intro b hb _
      rcases List.mem_cons.mp hb with hb | hb
      · rw [hb]
      · exact hs.1 b hb
    | false =>
      rw [hq] at h
      intro b hb hpb
      rcases List.mem_cons.mp hb with hb | hb
      · rw [hb] at hpb
        rw [hpb] at hq
        exact Bool.noConfusion hq
      · exact ih hs.2 h b hb hpb

theorem nextAvailableSlot_spec (reg : Registry) (hInv : RegInv reg) (s : ℕ)
    (h : nextAvailableSlot reg.slotMemory = some s) :
    (1 ≤ s ∧ s ≤ maxTargets)
      ∧ (∀ info, alookup s reg.slotMemory = some info → info.track_id = none)
      ∧ s ∉ reg.selected.map Prod.snd := by
  obtain ⟨hndSel, hndMem, hrange, hsyncF, hsyncB⟩ := hInv
  unfold nextAvailableSlot at h
  cases hf : (sortMem reg.slotMemory).find? (fun p => p.2.track_id.isNone) with
  | some p =>
    rw [hf] at h
    have hps : p.1 = s := Option.some_inj.mp h
    have hpm : p ∈ reg.slotMemory :=
      mem_sortMem.mp (List.mem_of_find?_eq_some hf)
    have hnone : p.2.track_id = none := by
      have := List.find?_some hf
      simpa [Option.isNone_iff_eq_none] using this
    have hlk : alookup s reg.slotMemory = some p.2 := by
      rw [← hps]
      exact mem_alookup hndMem hpm
    refine ⟨hps ▸ hrange p hpm, ?_, ?_⟩
    · intro info hinfo
      rw [hlk] at hinfo
      rw [← Option.some_inj.mp hinfo]
      exact hnone
    · intro hmem
      rw [List.mem_map] at hmem
      obtain ⟨q, hq, hq2⟩ := hmem
      have := boundSlotOk_iff.mp (hsyncF q hq)
      obtain ⟨info, hi1, hi2⟩ := this
      rw [hq2, hlk] at hi1
      rw [← Option.some_inj.mp hi1] at hi2
      rw [hnone] at hi2
      exact Option.noConfusion hi2
  | none =>
    rw [hf] at h
    have h2 : (List.range' 1 maxTargets).find?
        (fun x => decide (x ∉ reg.slotMemory.map Prod.fst)) = some s := h
    have hmm : s ∈ List.range' 1 maxTargets := List.mem_of_find?_eq_some h2
    have hsp := List.find?_some h2
    have hsk : s ∉ reg.slotMemory.map Prod.fst := by
      simpa using hsp
    have hbounds : 1 ≤ s ∧ s ≤ maxTargets := by
      rw [List.mem_range'_1] at hmm
      unfold maxTargets at hmm ⊢
      omega
    refine ⟨hbounds, ?_, ?_⟩
    · intro info hinfo
      exact absurd (List.mem_map.mpr ⟨(s, info), alookup_mem hinfo, rfl⟩) hsk
    · intro hmem
      rw [List.mem_map] at hmem
      obtain ⟨q, hq, hq2⟩ := hmem
      obtain ⟨info, hi1, _⟩ := boundSlotOk_iff.mp (hsyncF q hq)
      rw [hq2] at hi1
      exact hsk (List.mem_map.mpr ⟨(s, info), alookup_mem hi1, rfl⟩)

theorem regInv_toggle (reg : Registry) (tid : ℕ) (now : ℚ)
    (hInv : RegInv reg) : RegInv (toggleTrack reg tid now).1 := by
  obtain ⟨ndSel, ndMem, memRange, syncF, syncB⟩ := hInv
  unfold toggleTrack
  cases hl : alookup tid reg.selected with
  | some slot =>
    dsimp only
    obtain ⟨info0, hi0, hi0t⟩ :=
      boundSlotOk_iff.mp (syncF (tid, slot) (alookup_mem hl))
    refine ⟨?_, ?_, ?_, ?_, ?_⟩
    · exact ((aerase_map_fst_sublist tid reg.selected).nodup ndSel)
    · exact ((aerase_map_fst_sublist slot reg.slotMemory).nodup ndMem)
    · intro p hp
      exact memRange p (mem_aerase hp).1
    · intro p hp
      obtain ⟨hpm, hpne⟩ := mem_aerase hp
      obtain ⟨info, h1, h2⟩ := boundSlotOk_iff.mp (syncF p hpm)
      have hps : p.2 ≠ slot := by
        intro he
        rw [he, hi0] at h1
        rw [← Option.some_inj.mp h1] at h2
        rw [hi0t] at h2
        exact hpne (Option.some_inj.mp h2).symm
      rw [boundSlotOk_iff]
      refine ⟨info, ?_, h2⟩
      rw [alookup_aerase_ne _ hps]
      exact h1
    · intro p hp
      obtain ⟨hpm, hpne⟩ := mem_aerase hp
      have hsb := syncB p hpm
      cases ht : p.2.track_id with
      | none => exact slotBoundTo_none _ _
      | some t =>
        rw [ht] at hsb
        rw [slotBoundTo_some] at hsb ⊢
        have htne : t ≠ tid := by
          intro he
          rw [he, hl] at hsb
          exact hpne (Option.some_inj.mp hsb).symm
        rw [alookup_aerase_ne _ htne]
        exact hsb
  | none =>
    cases hs : nextAvailableSlot reg.slotMemory with
    | none =>
      dsimp only
      exact ⟨ndSel, ndMem, memRange, syncF, syncB⟩
    | some slot =>
      dsimp only
      obtain ⟨⟨hb1, hb2⟩, hunb, hnsel⟩ :=
        nextAvailableSlot_spec reg ⟨ndSel, ndMem, memRange, syncF, syncB⟩ slot hs
      have htid : tid ∉ reg.selected.map Prod.fst := alookup_eq_none.mp hl
      refine ⟨?_, ?_, ?_, ?_, ?_⟩
      · rw [aset_map_fst_of_not_mem _ htid]
        refine List.Nodup.append ndSel (List.nodup_singleton _) ?_
        intro a ha hb
        simp only [List.mem_singleton] at hb
        rw [hb] at ha
        exact htid ha
      · by_cases hm : slot ∈ reg.slotMemory.map Prod.fst
        · rw [aset_map_fst_of_mem _ hm]
          exact ndMem
        · rw [aset_map_fst_of_not_mem _ hm]
          refine List.Nodup.append ndMem (List.nodup_singleton _) ?_
          intro a ha hb
          simp only [List.mem_singleton] at hb
          rw [hb] at ha
          exact hm ha
      · intro p hp
        rcases mem_aset_cases hp with he | ⟨hpm, _⟩
        · rw [he]
          exact ⟨hb1, hb2⟩
        · exact memRange p hpm
      · intro p hp
        rcases mem_aset_cases hp with he | ⟨hpm, hpne⟩
        · rw [he]
          rw [boundSlotOk_iff]
          exact ⟨⟨some tid, none, none, now⟩, alookup_aset_self _ _ _, rfl⟩
        · obtain ⟨info, h1, h2⟩ := boundSlotOk_iff.mp (syncF p hpm)
          have hps : p.2 ≠ slot := by
            intro he
            exact hnsel (List.mem_map.mpr ⟨p, hpm, he⟩)
          rw [boundSlotOk_iff]
          refine ⟨info, ?_, h2⟩
          rw [alookup_aset_ne _ _ hps]
          exact h1
      · intro p hp
        rcases mem_aset_cases hp with he | ⟨hpm, hpne⟩
        · rw [he]
          exact alookup_aset_self _ _ _
        · have hsb := syncB p hpm
          cases ht : p.2.track_id with
          | none => exact slotBoundTo_none _ _
          | some t =>
            rw [ht] at hsb
            rw [slotBoundTo_some] at hsb ⊢
            have htne : t ≠ tid := by
              intro he
              rw [he, hl] at hsb
              exact Option.noConfusion hsb
            rw [alookup_aset_ne _ _ htne]
            exact hsb

theorem regInv_deleteSlot (reg : Registry) (slot : ℕ)
    (hInv : RegInv reg) : RegInv (deleteSlot reg slot).1 := by
  obtain ⟨ndSel, ndMem, memRange, syncF, syncB⟩ := hInv
  unfold deleteSlot
  cases hm : alookup slot reg.slotMemory with
  | none =>
    dsimp only
    exact ⟨ndSel, ndMem, memRange, syncF, syncB⟩
  | some info =>
    dsimp only
    have hinfomem : (slot, info) ∈ reg.slotMemory := alookup_mem hm
    cases ht : info.track_id with
    | some t =>
      have hsb := syncB (slot, info) hinfomem
      rw [ht] at hsb
      rw [slotBoundTo_some] at hsb
      refine ⟨?_, ?_, ?_, ?_, ?_⟩
      · exact ((aerase_map_fst_sublist t reg.selected).nodup ndSel)
      · exact ((aerase_map_fst_sublist slot reg.slotMemory).nodup ndMem)
      · intro p hp
        exact memRange p (mem_aerase hp).1
      · intro p hp
        obtain ⟨hpm, hpne⟩ := mem_aerase hp
        obtain ⟨info2, h1, h2⟩ := boundSlotOk_iff.mp (syncF p hpm)
        have hps : p.2 ≠ slot := by
          intro he
          rw [he, hm] at h1
          rw [← Option.some_inj.mp h1] at h2
          rw [ht] at h2
          have : t = p.1 := Option.some_inj.mp h2
          rw [← this] at hpne
          exact hpne rfl
        rw [boundSlotOk_iff]
        refine ⟨info2, ?_, h2⟩
        rw [alookup_aerase_ne _ hps]
        exact h1
      · intro p hp
        obtain ⟨hpm, hpne⟩ := mem_aerase hp
        have hsb2 := syncB p hpm
        cases ht2 : p.2.track_id with
        | none => exact slotBoundTo_none _ _
        | some t2 =>
          rw [ht2] at hsb2
          rw [slotBoundTo_some] at hsb2 ⊢
          have htne : t2 ≠ t := by
            intro he
            rw [he, hsb] at hsb2
            exact hpne (Option.some_inj.mp hsb2).symm
          rw [alookup_aerase_ne _ htne]
          exact hsb2
    | none =>
      refine ⟨ndSel, ?_, ?_, ?_, ?_⟩
      · exact ((aerase_map_fst_sublist slot reg.slotMemory).nodup ndMem)
      · intro p hp
        exact memRange p (mem_aerase hp).1
      · intro p hp
        obtain ⟨info2, h1, h2⟩ := boundSlotOk_iff.mp (syncF p hp)
        have hps : p.2 ≠ slot := by
          intro he
          rw [he, hm] at h1
          rw [← Option.some_inj.mp h1] at h2
          rw [ht] at h2
          exact Option.noConfusion h2
        rw [boundSlotOk_iff]
        refine ⟨info2, ?_, h2⟩
        rw [alookup_aerase_ne _ hps]
        exact h1
      · intro p hp
        exact syncB p (mem_aerase hp).1

theorem regInv_pruneStep (act : List ℕ) (r : Registry) (p : ℕ × ℕ)
    (hInv : RegInv r) (hlk : alookup p.1 r.selected = some p.2) :
    RegInv (pruneStep act r p)
      ∧ ∀ q : ℕ × ℕ, q.1 ≠ p.1 →
          alookup q.1 (pruneStep act r p).selected = alookup q.1 r.selected := by
  obtain ⟨ndSel, ndMem, memRange, syncF, syncB⟩ := hInv
  unfold pruneStep
  by_cases ha : p.1 ∈ act
  · rw [if_pos ha]
    exact ⟨⟨ndSel, ndMem, memRange, syncF, syncB⟩, fun q _ => rfl⟩
  · rw [if_neg ha]
    dsimp only
    obtain ⟨info0, hi0, hi0t⟩ :=
      boundSlotOk_iff.mp (syncF (p.1, p.2) (alookup_mem hlk))
    refine ⟨⟨?_, ?_, ?_, ?_, ?_⟩, ?_⟩
    · exact ((aerase_map_fst_sublist p.1 r.selected).nodup ndSel)
    · rw [amodify_map_fst]
      exact ndMem
    · intro q hq
      have hq2 : q ∈ amodify p.2
          (fun i => { i with track_id := none }) r.slotMemory := hq
      rcases mem_amodify_cases hq2 with ⟨v, hv, he⟩ | ⟨hqm, _⟩
      · rw [he]
        exact memRange (p.2, v) hv
      · exact memRange q hqm
    · intro q hq
      obtain ⟨hqm, hqne⟩ := mem_aerase hq
      obtain ⟨info, h1, h2⟩ := boundSlotOk_iff.mp (syncF q hqm)
      have hqs : q.2 ≠ p.2 := by
        intro he
        rw [he, hi0] at h1
        rw [← Option.some_inj.mp h1] at h2
        rw [hi0t] at h2
        exact hqne (Option.some_inj.mp h2).symm
      rw [boundSlotOk_iff]
      refine ⟨info, ?_, h2⟩
      rw [alookup_amodify_ne _ _ hqs]
      exact h1
    · intro q hq
      have hq2 : q ∈ amodify p.2
          (fun i => { i with track_id := none }) r.slotMemory := hq
      rcases mem_amodify_cases hq2 with ⟨v, hv, he⟩ | ⟨hqm, hqne⟩
      · rw [he]
        exact slotBoundTo_none _ _
      · have hsb := syncB q hqm
        cases ht : q.2.track_id with
        | none => exact slotBoundTo_none _ _
        | some t =>
          rw [ht] at hsb
          rw [slotBoundTo_some] at hsb ⊢
          have htne : t ≠ p.1 := by
            intro he
            rw [he, hlk] at hsb
            exact hqne (Option.some_inj.mp hsb).symm
          rw [alookup_aerase_ne _ htne]
          exact hsb
    · intro q hqne
      exact alookup_aerase_ne _ hqne

theorem regInv_pruneFold (act : List ℕ) :
    ∀ (l : List (ℕ × ℕ)) (r : Registry), RegInv r →
      (∀ p ∈ l, alookup p.1 r.selected = some p.2) →
      (l.map Prod.fst).Nodup →
      RegInv (l.foldl (pruneStep act) r) := by
  intro l
  induction l with
  | nil => intro r hInv _ _; simpa using hInv
  | cons p rest ih =>
    intro r hInv hlk hnd
    simp only [List.foldl_cons]
    simp only [List.map_cons, List.nodup_cons] at hnd
    obtain ⟨hInv', hlook⟩ :=
      regInv_pruneStep act r p hInv (hlk p (List.mem_cons_self p rest))
    refine ih (pruneStep act r p) hInv' ?_ hnd.2
    intro q hq
    have hqne : q.1 ≠ p.1 := by
      intro he
      exact hnd.1 (he ▸ List.mem_map.mpr ⟨q, hq, rfl⟩)
    rw [hlook q hqne]
    exact hlk q (List.mem_cons_of_mem p hq)

theorem regInv_prune (reg : Registry) (act : List ℕ)
    (hInv : RegInv reg) : RegInv (pruneSelected reg act) := by
  unfold pruneSelected
  exact regInv_pruneFold act reg.selected reg hInv
    (fun p hp => mem_alookup hInv.1 hp) hInv.1

theorem pruneFold_selected_sub (act : List ℕ) :
    ∀ (l : List (ℕ × ℕ)) (r : Registry) (t s : ℕ),
      alookup t (l.foldl (pruneStep act) r).selected = some s →
      t ∈ act ∨ (t ∉ l.map Prod.fst ∧ alookup t r.selected = some s) := by
  intro l
  induction l with
  | nil =>
    intro r t s h
    simp only [List.foldl_nil] at h
    exact Or.inr ⟨by simp, h⟩
  | cons p rest ih =>
    intro r t s h
    simp only [List.foldl_cons] at h
    rcases ih (pruneStep act r p) t s h with hact | ⟨hnk, hlk⟩
    · exact Or.inl hact
    · unfold pruneStep at hlk
      by_cases ha : p.1 ∈ act
      · rw [if_pos ha] at hlk
        by_cases htp : t = p.1
        · exact Or.inl (htp ▸ ha)
        · refine Or.inr ⟨?_, hlk⟩
          simp only [List.map_cons, List.mem_cons]
          push_neg
          exact ⟨htp, hnk⟩
      · rw [if_neg ha] at hlk
        have htp : t ≠ p.1 := by
          intro he
          rw [he] at hlk
          dsimp only at hlk
          rw [alookup_aerase_self] at hlk
          exact Option.noConfusion hlk
        dsimp only at hlk
        rw [alookup_aerase_ne _ htp] at hlk
        refine Or.inr ⟨?_, hlk⟩
        simp only [List.map_cons, List.mem_cons]
        push_neg
        exact ⟨htp, hnk⟩

theorem alookup_append_left {α : Type} {k : ℕ} {v : α} {l₁ : List (ℕ × α)}
    (l₂ : List (ℕ × α)) (h : alookup k l₁ = some v) :
    alookup k (l₁ ++ l₂) = some v := by
  rw [alookup_append, h]

theorem regInv_autoStep (inactive : List (ℕ × SlotInfo))
    (descs : List (ℕ × Option (List ℚ))) (now : ℚ)
    (st : Registry × List ℕ) (obj : TrackedObj)
    (hInv : RegInv st.1)
    (hact : ∀ t ∈ st.1.selected.map Prod.fst, t ∈ st.2) :
    RegInv (autoStep inactive descs now st obj).1
      ∧ (∀ t ∈ (autoStep inactive descs now st obj).1.selected.map Prod.fst,
           t ∈ (autoStep inactive descs now st obj).2) := by
  obtain ⟨ndSel, ndMem, memRange, syncF, syncB⟩ := hInv
  unfold autoStep
  by_cases hin : obj.id ∈ st.2
  · rw [if_pos hin]
    exact ⟨⟨ndSel, ndMem, memRange, syncF, syncB⟩, hact⟩
  · rw [if_neg hin]
    cases hbest : bestRecallSlot inactive (getDesc descs obj.id) obj.bbox with
    | none => exact ⟨⟨ndSel, ndMem, memRange, syncF, syncB⟩, hact⟩
    | some pv =>
      obtain ⟨slot, v⟩ := pv
      dsimp only
      cases hm : alookup slot st.1.slotMemory with
      | none => exact ⟨⟨ndSel, ndMem, memRange, syncF, syncB⟩, hact⟩
      | some info =>
        dsimp only
        by_cases hsome : info.track_id.isSome
        · rw [if_pos hsome]
          exact ⟨⟨ndSel, ndMem, memRange, syncF, syncB⟩, hact⟩
        · rw [if_neg hsome]
          have hnone : info.track_id = none :=
            Option.not_isSome_iff_eq_none.mp hsome
          have htid : obj.id ∉ st.1.selected.map Prod.fst :=
            fun hmem => hin (hact obj.id hmem)
          have hmemk : slot ∈ st.1.slotMemory.map Prod.fst :=
            List.mem_map.mpr ⟨(slot, info), alookup_mem hm, rfl⟩
          have hnsel : slot ∉ st.1.selected.map Prod.snd := by
            intro hmem
            rw [List.mem_map] at hmem
            obtain ⟨q, hq, hq2⟩ := hmem
            obtain ⟨info2, h1, h2⟩ := boundSlotOk_iff.mp (syncF q hq)
            rw [hq2, hm] at h1
            rw [← Option.some_inj.mp h1] at h2
            rw [hnone] at h2
            exact Option.noConfusion h2
          refine ⟨⟨?_, ?_, ?_, ?_, ?_⟩, ?_⟩
          · rw [aset_map_fst_of_not_mem _ htid]
            refine List.Nodup.append ndSel (List.nodup_singleton _) ?_
            intro a ha hb
            simp only [List.mem_singleton] at hb
            rw [hb] at ha
            exact htid ha
          · rw [aset_map_fst_of_mem _ hmemk]
            exact ndMem
          · intro p hp
            rcases mem_aset_cases hp with he | ⟨hpm, _⟩
            · rw [he]
              exact memRange (slot, info) (alookup_mem hm)
            · exact memRange p hpm
          · intro p hp
            rw [aset_of_not_mem _ htid] at hp
            rcases List.mem_append.mp hp with hp | hp
            · obtain ⟨info2, h1, h2⟩ := boundSlotOk_iff.mp (syncF p hp)
              have hps : p.2 ≠ slot := by
                intro he
                exact hnsel (List.mem_map.mpr ⟨p, hp, he⟩)
              rw [boundSlotOk_iff]
              refine ⟨info2, ?_, h2⟩
              rw [alookup_aset_ne _ _ hps]
              exact h1
            · simp only [List.mem_singleton] at hp
              rw [hp, boundSlotOk_iff]
              exact ⟨_, alookup_aset_self _ _ _, rfl⟩
          · intro p hp
            rcases mem_aset_cases hp with he | ⟨hpm, hpne⟩
            · rw [he]
              show alookup obj.id (aset obj.id slot st.1.selected) = some slot
              exact alookup_aset_self _ _ _
            · have hsb := syncB p hpm
              cases ht : p.2.track_id with
              | none => exact slotBoundTo_none _ _
              | some t =>
                rw [ht] at hsb
                rw [slotBoundTo_some] at hsb ⊢
                have htne : t ≠ obj.id := by
                  intro he
                  rw [he, alookup_eq_none.mpr htid] at hsb
                  exact Option.noConfusion hsb
                rw [alookup_aset_ne _ _ htne]
                exact hsb
          · intro t hmem
            rw [aset_of_not_mem _ htid, List.map_append] at hmem
            rcases List.mem_append.mp hmem with hmem | hmem
            · exact List.mem_append_left _ (hact t hmem)
            · simp only [List.map_cons, List.map_nil, List.mem_singleton] at hmem
              rw [hmem]
              exact List.mem_append_right _ (List.mem_singleton_self _)

theorem regInv_autoFold (inactive : List (ℕ × SlotInfo))
    (descs : List (ℕ × Option (List ℚ))) (now : ℚ) :
    ∀ (objs : List TrackedObj) (st : Registry × List ℕ),
      RegInv st.1 → (∀ t ∈ st.1.selected.map Prod.fst, t ∈ st.2) →
      RegInv ((objs.foldl (autoStep inactive descs now) st).1) := by
  intro objs
  induction objs with
  | nil => intro st hInv _; simpa using hInv
  | cons obj rest ih =>
    intro st hInv hact
    simp only [List.foldl_cons]
    obtain ⟨h1, h2⟩ := regInv_autoStep inactive descs now st obj hInv hact
    exact ih _ h1 h2

theorem regInv_autoReassign (reg : Registry) (tracked : List TrackedObj)
    (descs : List (ℕ × Option (List ℚ))) (now : ℚ)
    (hInv : RegInv reg) : RegInv (autoReassign reg tracked descs now) := by
  unfold autoReassign
  exact regInv_autoFold _ descs now tracked (reg, reg.selected.map Prod.fst)
    hInv (fun t ht => ht)

theorem regInv_bindUpdate (reg : Registry) (slot tid : ℕ) (bbox : Box)
    (descriptor : Option (List ℚ)) (now : ℚ) (hInv : RegInv reg)
    (hlk : alookup tid reg.selected = some slot) :
    RegInv (bindUpdate reg slot tid bbox descriptor now) := by
  obtain ⟨ndSel, ndMem, memRange, syncF, syncB⟩ := hInv
  obtain ⟨info0, hi0, hi0t⟩ :=
    boundSlotOk_iff.mp (syncF (tid, slot) (alookup_mem hlk))
  have hi0' : alookup slot reg.slotMemory = some info0 := hi0
  have hi0t' : info0.track_id = some tid := hi0t
  have hmemk : slot ∈ reg.slotMemory.map Prod.fst :=
    List.mem_map.mpr ⟨(slot, info0), alookup_mem hi0', rfl⟩
  obtain ⟨newInfo, hni⟩ : ∃ ni : SlotInfo,
      ni = { track_id := some tid, bbox := some bbox,
             descriptor :=
               match descriptor with
               | some d => some d
               | none => info0.descriptor,
             last_seen := now } := ⟨_, rfl⟩
  have hnit : newInfo.track_id = some tid := by
    rw [hni]
  have hre : bindUpdate reg slot tid bbox descriptor now =
      { reg with slotMemory := aset slot newInfo reg.slotMemory } := by
    unfold bindUpdate
    rw [hi0', hni]
    rfl
  rw [hre]
  refine ⟨ndSel, ?_, ?_, ?_, ?_⟩
  · rw [aset_map_fst_of_mem _ hmemk]
    exact ndMem
  · intro p hp
    have hp2 : p ∈ aset slot newInfo reg.slotMemory := hp
    rcases mem_aset_cases hp2 with he | ⟨hpm, _⟩
    · rw [he]
      exact memRange (slot, info0) (alookup_mem hi0')
    · exact memRange p hpm
  · intro p hp
    have hp2 : p ∈ reg.selected := hp
    by_cases hps : p.2 = slot
    · obtain ⟨infop, hp1, hpt⟩ := boundSlotOk_iff.mp (syncF p hp2)
      rw [hps, hi0'] at hp1
      rw [← Option.some_inj.mp hp1] at hpt
      rw [hi0t'] at hpt
      have hptid : p.1 = tid := (Option.some_inj.mp hpt).symm
      rw [boundSlotOk_iff]
      refine ⟨newInfo, ?_, ?_⟩
      · show alookup p.2 (aset slot newInfo reg.slotMemory) = some newInfo
        rw [hps]
        exact alookup_aset_self _ _ _
      · rw [hnit, hptid]
    · obtain ⟨infop, hp1, hpt⟩ := boundSlotOk_iff.mp (syncF p hp2)
      rw [boundSlotOk_iff]
      refine ⟨infop, ?_, hpt⟩
      show alookup p.2 (aset slot newInfo reg.slotMemory) = some infop
      rw [alookup_aset_ne _ _ hps]
      exact hp1
  · intro p hp
    have hp2 : p ∈ aset slot newInfo reg.slotMemory := hp
    rcases mem_aset_cases hp2 with he | ⟨hpm, hpne⟩
    · rw [he]
      show slotBoundTo reg.selected slot newInfo.track_id
      rw [hnit]
      exact hlk
    · have hsb := syncB p hpm
      cases ht : p.2.track_id with
      | none => exact slotBoundTo_none _ _
      | some t =>
        rw [ht] at hsb
        exact hsb

/-- Claim C9 (confirmed): in any well-formed registry state at most one
slot is bound to a given track identity, and every registry operation —
toggle, delete, reconcile (prune), auto-reassign, per-cycle memory
refresh — preserves the full well-formedness invariant `RegInv`, whose
sync components state that the binding map and the slots' recorded track
ids agree exactly in both directions. -/
theorem c9_registry_invariants (reg : Registry) (hInv : RegInv reg) :
    (∀ p q : ℕ × ℕ, p ∈ reg.selected → q ∈ reg.selected →
        p.1 = q.1 → p.2 = q.2)
      ∧ (∀ tid now, RegInv (toggleTrack reg tid now).1)
      ∧ (∀ slot, RegInv (deleteSlot reg slot).1)
      ∧ (∀ act, RegInv (pruneSelected reg act))
      ∧ (∀ tracked descs now, RegInv (autoReassign reg tracked descs now))
      ∧ (∀ slot tid bbox descriptor now,
           alookup tid reg.selected = some slot →
           RegInv (bindUpdate reg slot tid bbox descriptor now)) := by
  refine ⟨?_, fun tid now => regInv_toggle reg tid now hInv,
    fun slot => regInv_deleteSlot reg slot hInv,
    fun act => regInv_prune reg act hInv,
    fun tracked descs now => regInv_autoReassign reg tracked descs now hInv,
    fun slot tid bbox descriptor now hlk =>
      regInv_bindUpdate reg slot tid bbox descriptor now hInv hlk⟩
  intro p q hp hq he
  have h1 : alookup p.1 reg.selected = some p.2 := mem_alookup hInv.1 hp
  have h2 : alookup p.1 reg.selected = some q.2 := by
    rw [he]
    exact mem_alookup hInv.1 hq
  rw [h1] at h2
  exact Option.some_inj.mp h2

/-- Witness for `c9_registry_invariants`: all five operations applied to
the concrete two-slot registry `regW9`. -/
theorem c9_witness :
    RegInv (toggleTrack regW9 5 1).1
      ∧ RegInv (deleteSlot regW9 1).1
      ∧ RegInv (pruneSelected regW9 [10])
      ∧ RegInv (autoReassign regW9 [⟨7, boxA, 0, 1⟩] [] 2)
      ∧ RegInv (bindUpdate regW9 1 10 boxA none 3) := by
  have h := c9_registry_invariants regW9 (by decide)
  exact ⟨h.2.1 5 1, h.2.2.1 1, h.2.2.2.1 [10],
    h.2.2.2.2.1 [⟨7, boxA, 0, 1⟩] [] 2,
    h.2.2.2.2.2 1 10 boxA none 3 (by decide)⟩

theorem selected_snd_nodup (reg : Registry) (hInv : RegInv reg) :
    (reg.selected.map Prod.snd).Nodup := by
  obtain ⟨ndSel, ndMem, memRange, syncF, syncB⟩ := hInv
  have pw1 : reg.selected.Pairwise (fun a b => a.1 ≠ b.1) :=
    List.pairwise_map.mp ndSel
  have pw2 : reg.selected.Pairwise (fun a b => a.2 ≠ b.2) := by
    refine pw1.imp_of_mem ?_
    intro a b ha hb hne he
    obtain ⟨ia, ha1, ha2⟩ := boundSlotOk_iff.mp (syncF a ha)
    obtain ⟨ib, hb1, hb2⟩ := boundSlotOk_iff.mp (syncF b hb)
    rw [← he] at hb1
    rw [ha1] at hb1
    rw [← Option.some_inj.mp hb1] at hb2
    rw [ha2] at hb2
    exact hne (Option.some_inj.mp hb2)
  exact List.pairwise_map.mpr pw2

theorem selected_length_le (reg : Registry) (hInv : RegInv reg) :
    reg.selected.length ≤ maxTargets := by
  have hnd := selected_snd_nodup reg hInv
  have hsub : (reg.selected.map Prod.snd) ⊆ List.range' 1 maxTargets := by
    intro x hx
    rw [List.mem_map] at hx
    obtain ⟨p, hp, hpx⟩ := hx
    obtain ⟨info, h1, _⟩ := boundSlotOk_iff.mp (hInv.2.2.2.1 p hp)
    have := hInv.2.2.1 (p.2, info) (alookup_mem h1)
    rw [List.mem_range'_1]
    omega
  have := (List.subperm_of_subset hnd hsub).length_le
  rw [List.length_map] at this
  rw [List.length_range'] at this
  exact this

theorem full_next_none (reg : Registry) (hInv : RegInv reg)
    (hlen : reg.selected.length = maxTargets) :
    nextAvailableSlot reg.slotMemory = none := by
  obtain ⟨ndSel, ndMem, memRange, syncF, syncB⟩ := hInv
  have hnd := selected_snd_nodup reg ⟨ndSel, ndMem, memRange, syncF, syncB⟩
  have hsub : (reg.selected.map Prod.snd) ⊆ List.range' 1 maxTargets := by
    intro x hx
    rw [List.mem_map] at hx
    obtain ⟨p, hp, hpx⟩ := hx
    obtain ⟨info, h1, _⟩ := boundSlotOk_iff.mp (syncF p hp)
    have := memRange (p.2, info) (alookup_mem h1)
    rw [List.mem_range'_1]
    omega
  have hperm : (reg.selected.map Prod.snd).Perm (List.range' 1 maxTargets) := by
    refine (List.subperm_of_subset hnd hsub).perm_of_length_le ?_
    rw [List.length_map, List.length_range', hlen]
  have hall : ∀ s ∈ List.range' 1 maxTargets, s ∈ reg.selected.map Prod.snd :=
    fun s hs => hperm.mem_iff.mpr hs
  have hbound : ∀ q ∈ reg.slotMemory, q.2.track_id ≠ none := by
    intro q hq
    have hqr := memRange q hq
    have hqs : q.1 ∈ reg.selected.map Prod.snd := by
      refine hall q.1 ?_
      rw [List.mem_range'_1]
      omega
    rw [List.mem_map] at hqs
    obtain ⟨p, hp, hps⟩ := hqs
    obtain ⟨info, h1, h2⟩ := boundSlotOk_iff.mp (syncF p hp)
    rw [hps] at h1
    have : alookup q.1 reg.slotMemory = some q.2 := mem_alookup ndMem hq
    rw [this] at h1
    rw [← Option.some_inj.mp h1] at h2
    rw [h2]
    exact Option.noConfusion
  unfold nextAvailableSlot
  have hf1 : (sortMem reg.slotMemory).find? (fun p => p.2.track_id.isNone) = none := by
    rw [List.find?_eq_none]
    intro q hq
    have := hbound q (mem_sortMem.mp hq)
    simpa [Option.isNone_iff_eq_none] using this
  rw [hf1]
  rw [List.find?_eq_none]
  intro s hs
  have hq := hall s hs
  rw [List.mem_map] at hq
  obtain ⟨p, hp, hps⟩ := hq
  obtain ⟨info, h1, _⟩ := boundSlotOk_iff.mp (syncF p hp)
  rw [hps] at h1
  simp only [decide_eq_true_eq, Decidable.not_not]
  exact List.mem_map.mpr ⟨(s, info), alookup_mem h1, rfl⟩

/-- Claim C3 (confirmed): toggling never leaves more than `MAX_TARGETS`
bound slots, and when all `MAX_TARGETS` slots are bound a selection
attempt for an unbound track returns exactly `full` with the state
unchanged. -/
theorem c3_capacity (reg : Registry) (tid : ℕ) (now : ℚ)
    (hInv : RegInv reg) :
    ((toggleTrack reg tid now).1.selected.length ≤ maxTargets)
      ∧ (reg.selected.length = maxTargets →
           alookup tid reg.selected = none →
           toggleTrack reg tid now = (reg, .full)) := by
  constructor
  · exact selected_length_le _ (regInv_toggle reg tid now hInv)
  · intro hlen hsel
    unfold toggleTrack
    rw [hsel, full_next_none reg hInv hlen]

/-- Witness for `c3_capacity` on the saturated registry `regFull`. -/
theorem c3_witness :
    (toggleTrack regFull 99 0).1.selected.length ≤ maxTargets
      ∧ toggleTrack regFull 99 0 = (regFull, .full) := by
  have h := c3_capacity regFull 99 0 (by decide)
  exact ⟨h.1, h.2 (by decide) (by decide)⟩

/-- Claim C4 (corrected), counterexample: slot 1 of `regC4` holds
retained memory (box, descriptor, timestamp) from a previous binding.
Toggling the unbound track 7 twice returns `added 1` then `removed 1`,
but the final slot memory is empty: the retained memory of slot 1 was
overwritten by the first toggle and popped by the second, so the
pre-call state is NOT restored exactly. -/
theorem c4_counterexample :
    (toggleTrack regC4 7 1).2 = .added 1
      ∧ (toggleTrack (toggleTrack regC4 7 1).1 7 2).2 = .removed 1
      ∧ (toggleTrack (toggleTrack regC4 7 1).1 7 2).1.slotMemory = []
      ∧ regC4.slotMemory ≠ [] := by
  refine ⟨by decide, by decide, by decide, by decide⟩

/-- Claim C4 (amended): toggling an unbound track twice in succession
returns `added s` then `removed s` and restores the binding map exactly;
slot memory is restored for every slot except the allocated one, whose
memory entry is deleted outright — so when slot `s` had no previous
memory entry the full state is restored, but any retained memory `s`
held before the first call is purged rather than restored. -/
theorem c4_amended (reg : Registry) (tid : ℕ) (now now' : ℚ) (s : ℕ)
    (hsel : alookup tid reg.selected = none)
    (hslot : nextAvailableSlot reg.slotMemory = some s) :
    (toggleTrack reg tid now).2 = .added s
      ∧ (toggleTrack (toggleTrack reg tid now).1 tid now').2 = .removed s
      ∧ (toggleTrack (toggleTrack reg tid now).1 tid now').1.selected =
          reg.selected
      ∧ (toggleTrack (toggleTrack reg tid now).1 tid now').1.slotMemory =
          aerase s reg.slotMemory := by
  have htid : tid ∉ reg.selected.map Prod.fst := alookup_eq_none.mp hsel
  have h1 : toggleTrack reg tid now =
      ({ selected := aset tid s reg.selected,
         slotMemory := aset s ⟨some tid, none, none, now⟩ reg.slotMemory },
       .added s) := by
    unfold toggleTrack
    rw [hsel, hslot]
  have h2 : alookup tid (aset tid s reg.selected) = some s :=
    alookup_aset_self _ _ _
  have h3 : toggleTrack (toggleTrack reg tid now).1 tid now' =
      ({ selected := aerase tid (aset tid s reg.selected),
         slotMemory :=
           aerase s (aset s ⟨some tid, none, none, now⟩ reg.slotMemory) },
       .removed s) := by
    rw [h1]
    unfold toggleTrack
    dsimp only
    rw [h2]
  refine ⟨by rw [h1], by rw [h3], ?_, ?_⟩
  · rw [h3]
    dsimp only
    rw [aset_of_not_mem _ htid]
    have hsplit : aerase tid (reg.selected ++ [(tid, s)]) =
        aerase tid reg.selected ++ aerase tid [(tid, s)] := by
      unfold aerase
      rw [List.filter_append]
    rw [hsplit, aerase_of_not_mem htid]
    have hnil : aerase tid [(tid, s)] = [] := by
      unfold aerase
      simp
    rw [hnil, List.append_nil]
  · rw [h3]
    dsimp only
    exact aerase_aset_self _ _ _

/-- Witness for `c4_amended` on `regC5` (the allocated slot 3 had
retained memory, which ends up erased, while the binding map returns to
its original empty state). -/
theorem c4_witness :
    (toggleTrack regC5 5 10).2 = .added 3
      ∧ (toggleTrack (toggleTrack regC5 5 10).1 5 11).2 = .removed 3
      ∧ (toggleTrack (toggleTrack regC5 5 10).1 5 11).1.selected =
          regC5.selected
      ∧ (toggleTrack (toggleTrack regC5 5 10).1 5 11).1.slotMemory =
          aerase 3 regC5.slotMemory :=
  c4_amended regC5 5 10 11 3 (by decide) (by decide)

/-- Claim C5 (corrected), counterexample: in `regC5` nothing is bound
(the binding map is empty), so slot 1 is not bound to any track, yet
selecting track 5 allocates slot 3 — the code prefers the
lowest-numbered slot with retained unbound memory (slot 3) over the
lower-numbered never-used slot 1, refuting the claim that the allocated
slot is the lowest-numbered unbound slot regardless of retained
memory. -/
theorem c5_counterexample :
    (toggleTrack regC5 5 0).2 = .added 3
      ∧ regC5.selected = []
      ∧ (1 : ℕ) < 3 :=
  ⟨by decide, by decide, by decide⟩

/-- Claim C5 (amended): when a toggle allocates slot `s`, either `s` is
the lowest-numbered slot holding a retained-but-unbound memory entry
(`track_id = None`), or no such remembered slot exists and `s` is the
lowest slot in `1..MAX_TARGETS` with no memory entry at all. -/
theorem c5_amended (reg : Registry) (tid : ℕ) (now : ℚ) (s : ℕ)
    (hsel : alookup tid reg.selected = none)
    (hres : (toggleTrack reg tid now).2 = .added s) :
    ((∃ info, (s, info) ∈ reg.slotMemory ∧ info.track_id = none)
        ∧ ∀ p ∈ reg.slotMemory, p.2.track_id = none → s ≤ p.1)
      ∨ ((∀ p ∈ reg.slotMemory, p.2.track_id ≠ none)
          ∧ s ∉ reg.slotMemory.map Prod.fst
          ∧ 1 ≤ s ∧ s ≤ maxTargets
          ∧ ∀ s', 1 ≤ s' → s' < s → s' ∈ reg.slotMemory.map Prod.fst) := by
  have hslot : nextAvailableSlot reg.slotMemory = some s := by
    unfold toggleTrack at hres
    rw [hsel] at hres
    cases hna : nextAvailableSlot reg.slotMemory with
    | none =>
      rw [hna] at hres
      exact absurd hres (by simp)
    | some s' =>
      rw [hna] at hres
      dsimp only at hres
      injection hres with hss
      rw [hss]
  unfold nextAvailableSlot at hslot
  cases hf : (sortMem reg.slotMemory).find? (fun p => p.2.track_id.isNone) with
  | some p =>
    rw [hf] at hslot
    have hps : p.1 = s := Option.some_inj.mp hslot
    have hpm : p ∈ reg.slotMemory :=
      mem_sortMem.mp (List.mem_of_find?_eq_some hf)
    have hnone : p.2.track_id = none := by
      have := List.find?_some hf
      simpa [Option.isNone_iff_eq_none] using this
    refine Or.inl ⟨⟨p.2, ?_, hnone⟩, ?_⟩
    · rw [← hps]
      exact hpm
    · intro q hq hqnone
      have hqs : q ∈ sortMem reg.slotMemory := mem_sortMem.mpr hq
      have hpred : (fun p => p.2.track_id.isNone) q = true := by
        simp [hqnone]
      have := find?_min_of_pairwise Prod.fst
        (pairwise_sortMem reg.slotMemory) hf q hqs hpred
      omega
  | none =>
    rw [hf] at hslot
    have h2 : (List.range' 1 maxTargets).find?
        (fun x => decide (x ∉ reg.slotMemory.map Prod.fst)) = some s := hslot
    have hnomem : ∀ p ∈ reg.slotMemory, p.2.track_id ≠ none := by
      intro p hp hnone
      have := List.find?_eq_none.mp hf p (mem_sortMem.mpr hp)
      simp [hnone] at this
    have hsk : s ∉ reg.slotMemory.map Prod.fst := by
      have := List.find?_some h2
      simpa using this
    have hmm : s ∈ List.range' 1 maxTargets := List.mem_of_find?_eq_some h2
    have hbounds : 1 ≤ s ∧ s ≤ maxTargets := by
      rw [List.mem_range'_1] at hmm
      unfold maxTargets at hmm ⊢
      omega
    refine Or.inr ⟨hnomem, hsk, hbounds.1, hbounds.2, ?_⟩
    intro s' h1 h2'
    by_contra hsk'
    have hs'm : s' ∈ List.range' 1 maxTargets := by
      rw [List.mem_range'_1]
      unfold maxTargets at hbounds ⊢
      omega
    have hpred : (fun x => decide (x ∉ reg.slotMemory.map Prod.fst)) s' = true := by
      simpa using hsk'
    have hpw : (List.range' 1 maxTargets).Pairwise (fun x y => id x ≤ id y) := by
      unfold maxTargets
      decide
    have := find?_min_of_pairwise id hpw h2 s' hs'm hpred
    simp only [id] at this
    omega

/-- Witness for `c5_amended` on `regC5`: the allocated slot 3 is the
lowest (indeed only) remembered unbound slot. -/
theorem c5_witness :
    ((∃ info, (3, info) ∈ regC5.slotMemory ∧ info.track_id = none)
        ∧ ∀ p ∈ regC5.slotMemory, p.2.track_id = none → 3 ≤ p.1)
      ∨ ((∀ p ∈ regC5.slotMemory, p.2.track_id ≠ none)
          ∧ 3 ∉ regC5.slotMemory.map Prod.fst
          ∧ 1 ≤ 3 ∧ 3 ≤ maxTargets
          ∧ ∀ s', 1 ≤ s' → s' < 3 → s' ∈ regC5.slotMemory.map Prod.fst) :=
  c5_amended regC5 5 0 3 (by decide) (by decide)

/-- Claim C6 (corrected), counterexample: in `regC6`, slot 1 is bound to
track 9, which is dead this cycle, and the new track 2 sits exactly at
the slot's remembered box.  The code's cycle order (`auto_reassign`
before `_prune_selected`, lines 386-388) leaves track 2 unbound — the
recall pass still observed the dead binding — while the spec's order
(reconcile before auto_reassign) would rebind slot 1 to track 2 in the
same cycle.  The two orders produce different states, refuting the
claimed update→reconcile→auto_reassign order. -/
theorem c6_counterexample :
    (cycleRegistry regC6 trackedC6 [] 1).selected = []
      ∧ (specCycleRegistry regC6 trackedC6 [] 1).selected = [(2, 1)]
      ∧ cycleRegistry regC6 trackedC6 [] 1 ≠
          specCycleRegistry regC6 trackedC6 [] 1 := by
  have h1 : (cycleRegistry regC6 trackedC6 [] 1).selected = [] := by
    simp [cycleRegistry, autoReassign, autoStep, pruneSelected, pruneStep,
      regC6, trackedC6, bestRecallSlot, recallStep, recallScore, getDesc, alookup,
      aerase, amodify, aset]
  have h2 : (specCycleRegistry regC6 trackedC6 [] 1).selected = [(2, 1)] := by
    norm_num [specCycleRegistry, autoReassign, autoStep, pruneSelected,
      pruneStep, regC6, trackedC6, bestRecallSlot, recallStep, recallScore, getDesc,
      alookup, aerase, amodify, aset, bboxIou, slotRecallIou, boxA]
  refine ⟨h1, h2, ?_⟩
  intro he
  rw [he, h2] at h1
  exact List.noConfusion h1

/-- Claim C6 (amended): the code's per-cycle order is Associator update,
then `auto_reassign`, then `_prune_selected` (reconcile); auto-reassign
therefore observes the previous cycle's binding map, which may still
contain bindings to tracks that died this cycle, and those bindings are
removed only by the subsequent reconcile — so at the end of every cycle
each remaining binding refers to a live track of this cycle. -/
theorem c6_amended (reg : Registry) (tracked : List TrackedObj)
    (descs : List (ℕ × Option (List ℚ))) (now : ℚ) :
    ∀ t s, alookup t (cycleRegistry reg tracked descs now).selected = some s →
      t ∈ tracked.map TrackedObj.id := by
  intro t s h
  unfold cycleRegistry pruneSelected at h
  rcases pruneFold_selected_sub _ _ _ t s h with hact | ⟨hnk, hlk⟩
  · exact hact
  · rw [alookup_eq_none.mpr hnk] at hlk
    exact Option.noConfusion hlk

/-- Witness for `c6_amended`: after a full cycle on `regW6` the
surviving binding of track 2 indeed refers to a live track. -/
theorem c6_witness : (2 : ℕ) ∈ trackedC6.map TrackedObj.id :=
  c6_amended regW6 trackedC6 [] 1 2 1 (by decide)

theorem svalLt_irrefl (a : SVal) : ¬ SVal.lt a a := by
  cases a <;> simp [SVal.lt]

theorem svalLt_trans {a b c : SVal} (ha : SValWf a) (hb : SValWf b)
    (hc : SValWf c) (h1 : SVal.lt a b) (h2 : SVal.lt b c) : SVal.lt a c := by
  cases a with
  | ofQ qa =>
    cases b with
    | ofQ qb =>
      have h1' : qa < qb := h1
      cases c with
      | ofQ qc =>
        have h2' : qb < qc := h2
        show qa < qc
        linarith
      | oneMinusSqrt rc =>
        have hrc : (0:ℚ) ≤ rc := hc
        rw [svalLt_ofQ_oneMinusSqrt _ _ hrc] at h2 ⊢
        have h1r : (qa:ℝ) < (qb:ℝ) := by exact_mod_cast h1'
        linarith
    | oneMinusSqrt rb =>
      have hrb : (0:ℚ) ≤ rb := hb
      rw [svalLt_ofQ_oneMinusSqrt _ _ hrb] at h1
      cases c with
      | ofQ qc =>
        rw [svalLt_oneMinusSqrt_ofQ _ _ hrb] at h2
        show qa < qc
        have : (qa:ℝ) < (qc:ℝ) := by linarith
        exact_mod_cast this
      | oneMinusSqrt rc =>
        have hrc : (0:ℚ) ≤ rc := hc
        rw [svalLt_oneMinusSqrt_iff _ _ hrc] at h2
        rw [svalLt_ofQ_oneMinusSqrt _ _ hrc]
        linarith
  | oneMinusSqrt ra =>
    have hra : (0:ℚ) ≤ ra := ha
    cases b with
    | ofQ qb =>
      rw [svalLt_oneMinusSqrt_ofQ _ _ hra] at h1
      cases c with
      | ofQ qc =>
        have h2' : qb < qc := h2
        rw [svalLt_oneMinusSqrt_ofQ _ _ hra]
        have h2r : (qb:ℝ) < (qc:ℝ) := by exact_mod_cast h2'
        linarith
      | oneMinusSqrt rc =>
        have hrc : (0:ℚ) ≤ rc := hc
        rw [svalLt_ofQ_oneMinusSqrt _ _ hrc] at h2
        rw [svalLt_oneMinusSqrt_iff _ _ hrc]
        linarith
    | oneMinusSqrt rb =>
      have hrb : (0:ℚ) ≤ rb := hb
      rw [svalLt_oneMinusSqrt_iff _ _ hrb] at h1
      cases c with
      | ofQ qc =>
        rw [svalLt_oneMinusSqrt_ofQ _ _ hrb] at h2
        rw [svalLt_oneMinusSqrt_ofQ _ _ hra]
        linarith
      | oneMinusSqrt rc =>
        have hrc : (0:ℚ) ≤ rc := hc
        rw [svalLt_oneMinusSqrt_iff _ _ hrc] at h2
        rw [svalLt_oneMinusSqrt_iff _ _ hrc]
        linarith

theorem svalLt_not_lt_trans {a v b : SVal} (ha : SValWf a) (hv : SValWf v)
    (hb : SValWf b) (h1 : SVal.lt a v) (h2 : ¬ SVal.lt b v) : SVal.lt a b := by
  cases a with
  | ofQ qa =>
    cases v with
    | ofQ qv =>
      have h1' : qa < qv := h1
      cases b with
      | ofQ qb =>
        have h2' : ¬ qb < qv := h2
        show qa < qb
        linarith [le_of_not_lt h2']
      | oneMinusSqrt rb =>
        have hrb : (0:ℚ) ≤ rb := hb
        rw [svalLt_oneMinusSqrt_ofQ _ _ hrb] at h2
        rw [svalLt_ofQ_oneMinusSqrt _ _ hrb]
        have h1r : (qa:ℝ) < (qv:ℝ) := by exact_mod_cast h1'
        have h2r := le_of_not_lt h2
        linarith
    | oneMinusSqrt rv =>
      have hrv : (0:ℚ) ≤ rv := hv
      rw [svalLt_ofQ_oneMinusSqrt _ _ hrv] at h1
      cases b with
      | ofQ qb =>
        rw [svalLt_ofQ_oneMinusSqrt _ _ hrv] at h2
        have h2r := le_of_not_lt h2
        show qa < qb
        have : (qa:ℝ) < (qb:ℝ) := by linarith
        exact_mod_cast this
      | oneMinusSqrt rb =>
        have hrb : (0:ℚ) ≤ rb := hb
        rw [svalLt_oneMinusSqrt_iff _ _ hrv] at h2
        have h2r := le_of_not_lt h2
        rw [svalLt_ofQ_oneMinusSqrt _ _ hrb]
        linarith
  | oneMinusSqrt ra =>
    have hra : (0:ℚ) ≤ ra := ha
    cases v with
    | ofQ qv =>
      rw [svalLt_oneMinusSqrt_ofQ _ _ hra] at h1
      cases b with
      | ofQ qb =>
        have h2' : ¬ qb < qv := h2
        rw [svalLt_oneMinusSqrt_ofQ _ _ hra]
        have h2r : (qv:ℝ) ≤ (qb:ℝ) := by exact_mod_cast le_of_not_lt h2'
        linarith
      | oneMinusSqrt rb =>
        have hrb : (0:ℚ) ≤ rb := hb
        rw [svalLt_oneMinusSqrt_ofQ _ _ hrb] at h2
        have h2r := le_of_not_lt h2
        rw [svalLt_oneMinusSqrt_iff _ _ hrb]
        linarith
    | oneMinusSqrt rv =>
      have hrv : (0:ℚ) ≤ rv := hv
      rw [svalLt_oneMinusSqrt_iff _ _ hrv] at h1
      cases b with
      | ofQ qb =>
        rw [svalLt_ofQ_oneMinusSqrt _ _ hrv] at h2
        have h2r := le_of_not_lt h2
        rw [svalLt_oneMinusSqrt_ofQ _ _ hra]
        linarith
      | oneMinusSqrt rb =>
        have hrb : (0:ℚ) ≤ rb := hb
        rw [svalLt_oneMinusSqrt_iff _ _ hrv] at h2
        have h2r := le_of_not_lt h2
        rw [svalLt_oneMinusSqrt_iff _ _ hrb]
        linarith

theorem recallScore_wf {descriptor : Option (List ℚ)} {objBbox : Box}
    {info : SlotInfo} {v : SVal}
    (h : recallScore descriptor objBbox info = some v) : SValWf v := by
  unfold recallScore at h
  cases descriptor with
  | none =>
    dsimp only at h
    cases hb : info.bbox with
    | none => rw [hb] at h; exact Option.noConfusion h
    | some mem =>
      rw [hb] at h
      dsimp only at h
      split_ifs at h with h1 h2
      · cases h; trivial
      · cases h; exact centerRatioSq_nonneg _ _
  | some d =>
    cases hr : info.descriptor with
    | none =>
      rw [hr] at h
      dsimp only at h
      cases hb : info.bbox with
      | none => rw [hb] at h; exact Option.noConfusion h
      | some mem =>
        rw [hb] at h
        dsimp only at h
        split_ifs at h with h1 h2
        · cases h; trivial
        · cases h; exact centerRatioSq_nonneg _ _
    | some ref =>
      rw [hr] at h
      dsimp only at h
      split_ifs at h with h1 h2
      · cases h; exact descDistSq_nonneg _ _

theorem bestFold_spec (descriptor : Option (List ℚ)) (objBbox : Box) :
    ∀ (l : List (ℕ × SlotInfo)) (acc : Option (ℕ × SVal)),
      (∀ b, acc = some b → SValWf b.2) →
      ∀ res : ℕ × SVal,
      l.foldl (recallStep descriptor objBbox) acc = some res →
      (acc = some res ∨
        ∃ info, (res.1, info) ∈ l ∧
          recallScore descriptor objBbox info = some res.2) ∧
      SValWf res.2 ∧
      (∀ p ∈ l, ∀ v, recallScore descriptor objBbox p.2 = some v →
        ¬ SVal.lt res.2 v) ∧
      (∀ b, acc = some b → ¬ SVal.lt res.2 b.2) := by
  intro l
  induction l with
  | nil =>
    intro acc hacc res h
    simp only [List.foldl_nil] at h
    refine ⟨Or.inl h, hacc res h, ?_, ?_⟩
    · intro q hq; exact absurd hq (List.not_mem_nil q)
    · intro b hb
      rw [h] at hb
      cases hb
      exact svalLt_irrefl _
  | cons p l ih =>
    intro acc hacc res h
    rw [List.foldl_cons] at h
    cases hs : recallScore descriptor objBbox p.2 with
    | none =>
      have hstep : recallStep descriptor objBbox acc p = acc := by
        unfold recallStep; rw [hs]
      rw [hstep] at h
      obtain ⟨h1, h2, h3, h4⟩ := ih acc hacc res h
      refine ⟨?_, h2, ?_, h4⟩
      · rcases h1 with h1 | ⟨info, hmem, hsc⟩
        · exact Or.inl h1
        · exact Or.inr ⟨info, List.mem_cons_of_mem _ hmem, hsc⟩
      · intro q hq v hv
        rcases List.mem_cons.mp hq with rfl | hq'
        · rw [hs] at hv; exact Option.noConfusion hv
        · exact h3 q hq' v hv
    | some v =>
      have hwv : SValWf v := recallScore_wf hs
      cases acc with
      | none =>
        have hstep : recallStep descriptor objBbox none p = some (p.1, v) := by
          unfold recallStep; rw [hs]
        rw [hstep] at h
        obtain ⟨h1, h2, h3, h4⟩ := ih (some (p.1, v))
          (by intro b hb; cases hb; exact hwv) res h
        refine ⟨?_, h2, ?_, ?_⟩
        · rcases h1 with h1 | ⟨info, hmem, hsc⟩
          · cases h1
            exact Or.inr ⟨p.2, List.mem_cons_self _ _, hs⟩
          · exact Or.inr ⟨info, List.mem_cons_of_mem _ hmem, hsc⟩
        · intro q hq v' hv'
          rcases List.mem_cons.mp hq with rfl | hq'
          · rw [hs] at hv'
            cases hv'
            exact h4 (q.1, v) rfl
          · exact h3 q hq' v' hv'
        · intro b hb; exact Option.noConfusion hb
      | some b =>
        have hwb : SValWf b.2 := hacc b rfl
        by_cases hlt : SVal.lt b.2 v
        · have hstep : recallStep descriptor objBbox (some b) p
              = some (p.1, v) := by
            unfold recallStep; rw [hs]; dsimp only; rw [if_pos hlt]
          rw [hstep] at h
          obtain ⟨h1, h2, h3, h4⟩ := ih (some (p.1, v))
            (by intro b' hb'; cases hb'; exact hwv) res h
          have hnv : ¬ SVal.lt res.2 v := h4 (p.1, v) rfl
          refine ⟨?_, h2, ?_, ?_⟩
          · rcases h1 with h1 | ⟨info, hmem, hsc⟩
            · cases h1
              exact Or.inr ⟨p.2, List.mem_cons_self _ _, hs⟩
            · exact Or.inr ⟨info, List.mem_cons_of_mem _ hmem, hsc⟩
          · intro q hq v' hv'
            rcases List.mem_cons.mp hq with rfl | hq'
            · rw [hs] at hv'; cases hv'; exact hnv
            · exact h3 q hq' v' hv'
          · intro b' hb'
            cases hb'
            intro hcon
            exact hnv (svalLt_trans h2 hwb hwv hcon hlt)
        · have hstep : recallStep descriptor objBbox (some b) p = some b := by
            unfold recallStep; rw [hs]; dsimp only; rw [if_neg hlt]
          rw [hstep] at h
          obtain ⟨h1, h2, h3, h4⟩ := ih (some b) hacc res h
          have hnb : ¬ SVal.lt res.2 b.2 := h4 b rfl
          refine ⟨?_, h2, ?_, ?_⟩
          · rcases h1 with h1 | ⟨info, hmem, hsc⟩
            · exact Or.inl h1
            · exact Or.inr ⟨info, List.mem_cons_of_mem _ hmem, hsc⟩
          · intro q hq v' hv'
            rcases List.mem_cons.mp hq with rfl | hq'
            · rw [hs] at hv'
              cases hv'
              intro hcon
              exact hnb (svalLt_not_lt_trans h2 hwv hwb hcon hlt)
            · exact h3 q hq' v' hv'
          · intro b' hb'; cases hb'; exact hnb

/-- Claim C7 (corrected), counterexample: slot memory `infoC7` carries a
descriptor at squared distance `1` from the query descriptor `[1, 0]`
(beyond the `0.6` threshold, whose square is `9/25`) while its
remembered box coincides with the query box, so the IoU test would
accept the pair (`bboxIou boxA boxA` is far above the `0.3` threshold).
The claimed geometric fallback would therefore yield a score, but the
code gives the pair no score at all: once both descriptors are
available, the geometric branch is unreachable (`app/main.py`
lines 292-308, the `else` arm). -/
theorem c7_counterexample :
    recallScore (some [1, 0]) boxA infoC7 = none ∧
    infoC7.descriptor = some [0, 0] ∧
    infoC7.bbox = some boxA ∧
    slotRecallDesc ^ 2 < descDistSq [1, 0] [0, 0] ∧
    slotRecallIou ≤ bboxIou boxA boxA := by
  refine ⟨?_, rfl, rfl, ?_, ?_⟩
  · norm_num [recallScore, infoC7, descDistSq, slotRecallDesc]
  · norm_num [descDistSq, slotRecallDesc]
  · norm_num [bboxIou, boxA, slotRecallIou]

/-- Claim C7 (amended): in `_auto_reassign`, for each unbound live track
and each unbound slot with retained memory, (1) when both the track's
and the slot's appearance descriptors are available the pair's recall
score is `1 - descriptor_distance` if that distance is at most the
descriptor threshold, and otherwise the pair receives NO score at all —
the geometric test (IoU, then center distance, against the slot's
last-known box) is never used as a fallback once both descriptors are
present; (2) the scan keeps a slot with the highest accepted score: the
chosen slot's score is accepted and no scanned slot's accepted score
strictly exceeds it; and (3) when a best slot is found for an unbound
track, that slot — still present and unbound in live memory — is rebound
to the track, with its memory updated to the track id, the current box,
the timestamp, and the fresh descriptor when one is available. -/
theorem c7_amended :
    (∀ (d : List ℚ) (bbox : Box) (info : SlotInfo) (ref : List ℚ),
      info.descriptor = some ref →
      (d.length = ref.length → descDistSq d ref ≤ slotRecallDesc ^ 2 →
        recallScore (some d) bbox info
          = some (.oneMinusSqrt (descDistSq d ref))) ∧
      (¬ (d.length = ref.length ∧ descDistSq d ref ≤ slotRecallDesc ^ 2) →
        recallScore (some d) bbox info = none)) ∧
    (∀ (inactive : List (ℕ × SlotInfo)) (descriptor : Option (List ℚ))
      (bbox : Box) (s : ℕ) (v : SVal),
      bestRecallSlot inactive descriptor bbox = some (s, v) →
      (∃ info, (s, info) ∈ inactive ∧
        recallScore descriptor bbox info = some v) ∧
      ∀ p ∈ inactive, ∀ v', recallScore descriptor bbox p.2 = some v' →
        ¬ SVal.lt v v') ∧
    (∀ (reg : Registry) (obj : TrackedObj)
      (descs : List (ℕ × Option (List ℚ))) (now : ℚ) (s : ℕ) (v : SVal),
      RegInv reg →
      obj.id ∉ reg.selected.map Prod.fst →
      bestRecallSlot (reg.slotMemory.filter (fun p => p.2.track_id.isNone))
        (getDesc descs obj.id) obj.bbox = some (s, v) →
      ∃ info, alookup s reg.slotMemory = some info ∧
        info.track_id = none ∧
        autoReassign reg [obj] descs now =
          { selected := aset obj.id s reg.selected,
            slotMemory :=
              aset s
                { info with
                    track_id := some obj.id,
                    bbox := some obj.bbox,
                    last_seen := now,
                    descriptor :=
                      match getDesc descs obj.id with
                      | some dd => some dd
                      | none => info.descriptor }
                reg.slotMemory }) := by
  refine ⟨?_, ?_, ?_⟩
  · intro d bbox info ref href
    constructor
    · intro hlen hdist
      unfold recallScore
      rw [href]
      dsimp only
      rw [if_pos hlen, if_pos hdist]
    · intro hcon
      unfold recallScore
      rw [href]
      dsimp only
      by_cases hlen : d.length = ref.length
      · rw [if_pos hlen, if_neg (fun hd => hcon ⟨hlen, hd⟩)]
      · rw [if_neg hlen]
  · intro inactive descriptor bbox s v h
    unfold bestRecallSlot at h
    obtain ⟨h1, _, h3, _⟩ := bestFold_spec descriptor bbox inactive none
      (fun b hb => Option.noConfusion hb) (s, v) h
    rcases h1 with h1 | ⟨info, hmem, hsc⟩
    · exact Option.noConfusion h1
    · exact ⟨⟨info, hmem, hsc⟩, fun p hp v' hv' => h3 p hp v' hv'⟩
  · intro reg obj descs now s v hinv hnot hbest
    have hb' : (reg.slotMemory.filter
        (fun p => p.2.track_id.isNone)).foldl
        (recallStep (getDesc descs obj.id) obj.bbox) none = some (s, v) := hbest
    obtain ⟨h1, _, _, _⟩ := bestFold_spec (getDesc descs obj.id) obj.bbox
      (reg.slotMemory.filter (fun p => p.2.track_id.isNone)) none
      (fun b hb => Option.noConfusion hb) (s, v) hb'
    rcases h1 with h1 | ⟨info, hmem, _⟩
    · exact Option.noConfusion h1
    · have hmem2 := List.mem_filter.mp hmem
      have hmemL : (s, info) ∈ reg.slotMemory := hmem2.1
      have htid : info.track_id = none :=
        Option.isNone_iff_eq_none.mp (by simpa using hmem2.2)
      have halk : alookup s reg.slotMemory = some info :=
        mem_alookup hinv.2.1 hmemL
      refine ⟨info, halk, htid, ?_⟩
      unfold autoReassign
      simp only [List.foldl_cons, List.foldl_nil]
      unfold autoStep
      dsimp only
      rw [if_neg hnot, hbest]
      dsimp only
      rw [halk]
      dsimp only
      have hns : ¬ info.track_id.isSome = true := by
        rw [htid]; simp
      rw [if_neg hns]

/-- Witness for `c7_amended` on the `regW7` scenario: the unbound live
track 5, whose descriptor sits at squared distance `1/4 ≤ (3/5)^2` from
slot 2's remembered descriptor, gets slot 2 rebound to it with the
memory updated to its id, box, timestamp and fresh descriptor. -/
theorem c7_witness :
    RegInv regW7 ∧
    autoReassign regW7 [objW7] descsW7 9 =
      { selected := [(5, 2)],
        slotMemory := [(2, ⟨some 5, some objW7.bbox, some [1, -1/2], 9⟩)] } := by
  have hinv : RegInv regW7 := by decide
  have hnot : objW7.id ∉ regW7.selected.map Prod.fst := by decide
  have hbest : bestRecallSlot
      (regW7.slotMemory.filter (fun p => p.2.track_id.isNone))
      (getDesc descsW7 objW7.id) objW7.bbox
      = some (2, .oneMinusSqrt (1/4)) := by
    norm_num [bestRecallSlot, recallStep, recallScore, regW7, descsW7, objW7,
      getDesc, alookup, descDistSq, slotRecallDesc, List.filter]
  obtain ⟨info, halk, htid, heq⟩ :=
    c7_amended.2.2 regW7 objW7 descsW7 9 2 (.oneMinusSqrt (1/4))
      hinv hnot hbest
  have hI : alookup 2 regW7.slotMemory
      = some ⟨none, some boxA, some [1, 0], 7⟩ := rfl
  rw [hI] at halk
  injection halk with h
  subst h
  refine ⟨hinv, ?_⟩
  rw [heq]
  rfl
